import Mathlib

/-!
Shallow embedding of the `problem3` pipeline (`processor/process.py` and
`analyzer/analyze.py`): HTML stripping, tokenization, sentence splitting,
word/n-gram counting, Jaccard similarity, readability metrics, and the
two stage `main` entry points, together with theorems settling the
frozen claims about them.

Strings are modelled as `List Char`; Python regular expressions are
modelled as explicit character scanners with the same matching
semantics; floats are modelled as `ℚ`; `dict` is modelled as an
association list with Python's insertion-order update semantics.
-/

namespace Pipeline

/-- Python `\s` (ASCII range), as used by `re.split`/`re.sub`/`.strip()`. -/
def isWS (c : Char) : Bool :=
  c == ' ' || c == '\t' || c == '\n' || c == '\r' || c == '\x0b' || c == '\x0c'

/-- Python `\w` (ASCII range): letters, digits, underscore. -/
def isWordChar (c : Char) : Bool :=
  c.isAlphanum || c == '_'

/-- `.`, `!` or `?` — the sentence-ending punctuation class `[.!?]`. -/
def isPunct (c : Char) : Bool :=
  c == '.' || c == '!' || c == '?'

/-- Maximal runs of word characters, as matched by `re.findall(r"\b\w+\b", text)`
(the accumulator holds the current run, reversed). -/
def wordRunsAux : List Char → List Char → List (List Char)
  | [], acc => if acc.isEmpty then [] else [acc.reverse]
  | c :: cs, acc =>
    if isWordChar c then wordRunsAux cs (c :: acc)
    else if acc.isEmpty then wordRunsAux cs [] else acc.reverse :: wordRunsAux cs []

/-- `re.findall(r"\b\w+\b", text)` — the word runs of a text. -/
def wordRuns (l : List Char) : List (List Char) := wordRunsAux l []

/-- `analyze.tokenize`: lowercase the text, keep word-character runs only. -/
def tokenize (s : String) : List String :=
  (wordRuns (s.data.map Char.toLower)).map (fun cs => String.mk cs)

/-- Dropping a prefix never lengthens a list (termination helper). -/
theorem length_dropWhile_le (p : Char → Bool) (l : List Char) :
    (l.dropWhile p).length ≤ l.length :=
  (List.dropWhile_suffix p).sublist.length_le

/-- Head-of-accumulator test used by the sentence splitter: does the current
segment (stored reversed) end with sentence punctuation? -/
def headPunct : List Char → Bool
  | [] => false
  | c :: _ => isPunct c

/-- Fuel-driven scanner for `re.split(r'(?<=[.!?])\s+', text)` (one fuel unit
per character; `l.length` units always suffice). -/
def splitAtWSF : ℕ → List Char → List Char → List (List Char)
  | 0, _, acc => [acc.reverse]
  | _ + 1, [], acc => [acc.reverse]
  | n + 1, c :: cs, acc =>
    if isWS c && headPunct acc then
      acc.reverse :: splitAtWSF n (cs.dropWhile isWS) []
    else
      splitAtWSF n cs (c :: acc)

theorem splitAtWSF_congr : ∀ (n m : ℕ) (l acc : List Char),
    l.length ≤ n → l.length ≤ m → splitAtWSF n l acc = splitAtWSF m l acc := by
  intro n
  induction n with
  | zero =>
    intro m l acc h1 _
    have hl : l = [] := List.eq_nil_of_length_eq_zero (Nat.le_zero.mp h1)
    subst hl
    cases m <;> rfl
  | succ n ih =>
    intro m l acc h1 h2
    cases l with
    | nil => cases m <;> rfl
    | cons c cs =>
      cases m with
      | zero => simp at h2
      | succ m' =>
        show splitAtWSF (n + 1) (c :: cs) acc = splitAtWSF (m' + 1) (c :: cs) acc
        have hcs1 : cs.length ≤ n := by simpa using h1
        have hcs2 : cs.length ≤ m' := by simpa using h2
        unfold splitAtWSF
        by_cases hcond : (isWS c && headPunct acc) = true
        · rw [if_pos hcond, if_pos hcond,
            ih m' (cs.dropWhile isWS) []
              (le_trans (length_dropWhile_le isWS cs) hcs1)
              (le_trans (length_dropWhile_le isWS cs) hcs2)]
        · rw [if_neg hcond, if_neg hcond, ih m' cs (c :: acc) hcs1 hcs2]

/-- `re.split(r'(?<=[.!?])\s+', text)`: cut at each maximal whitespace run
immediately preceded by `.`, `!` or `?`; the punctuation stays attached to the
preceding segment and the whitespace run is consumed. -/
def splitAtWS (l acc : List Char) : List (List Char) := splitAtWSF l.length l acc

theorem splitAtWS_nil (acc : List Char) : splitAtWS [] acc = [acc.reverse] := rfl

theorem splitAtWS_cons (c : Char) (cs acc : List Char) :
    splitAtWS (c :: cs) acc
      = if isWS c && headPunct acc then
          acc.reverse :: splitAtWS (cs.dropWhile isWS) []
        else splitAtWS cs (c :: acc) := by
  show splitAtWSF (cs.length + 1) (c :: cs) acc = _
  unfold splitAtWSF
  by_cases hcond : (isWS c && headPunct acc) = true
  · rw [if_pos hcond, if_pos hcond]
    rw [splitAtWSF_congr cs.length (cs.dropWhile isWS).length (cs.dropWhile isWS) []
      (length_dropWhile_le isWS cs) (le_refl _)]
    rfl
  · rw [if_neg hcond, if_neg hcond]
    rfl

/-- `process.compute_statistics` sentence segments: `re.split(r'(?<=[.!?])\s+', text)`
filtered by truthiness (`if s`, i.e. non-empty). -/
def processorSentences (l : List Char) : List (List Char) :=
  (splitAtWS l []).filter (fun s => !s.isEmpty)

/-- `analyze.split_sentences`: same split, filtered by `if s.strip()`
(segment contains at least one non-whitespace character). -/
def split_sentences (s : String) : List (List Char) :=
  (splitAtWS s.data []).filter (fun seg => seg.any (fun c => !isWS c))

/-- Fuel-driven scanner for the split the spec describes literally: the
separator is one-or-more `.`/`!`/`?` followed by whitespace
(`re.split(r'[.!?]+\s+', text)`), so the punctuation run is consumed
together with the whitespace. -/
def splitSpecSepF : ℕ → List Char → List Char → List (List Char)
  | 0, _, acc => [acc.reverse]
  | _ + 1, [], acc => [acc.reverse]
  | n + 1, c :: cs, acc =>
    if isPunct c then
      let run := cs.takeWhile isPunct
      let rest := cs.dropWhile isPunct
      if (match rest with | r :: _ => isWS r | [] => false) then
        acc.reverse :: splitSpecSepF n (rest.dropWhile isWS) []
      else
        splitSpecSepF n rest (run.reverse ++ c :: acc)
    else
      splitSpecSepF n cs (c :: acc)

/-- The spec's literal split (`l.length` fuel units always suffice). -/
def splitSpecSep (l acc : List Char) : List (List Char) := splitSpecSepF l.length l acc

/-- Number of non-empty segments of the spec's literal split. -/
def specSentenceCount (l : List Char) : ℕ :=
  ((splitSpecSep l []).filter (fun s => !s.isEmpty)).length

/-- `analyze.jaccard_similarity`: `|A∩B| / |A∪B|` over the distinct-token
sets, `0.0` when the union is empty. -/
def jaccard_similarity (doc1_words doc2_words : List String) : ℚ :=
  let set1 := doc1_words.toFinset
  let set2 := doc2_words.toFinset
  let inter := set1 ∩ set2
  let union := set1 ∪ set2
  if union = ∅ then 0 else (inter.card : ℚ) / (union.card : ℚ)

/-- C4: the computed Jaccard similarity is symmetric, lies in `[0,1]`,
equals 1 on identical non-empty token sets, and equals 0 on disjoint
(in particular both-empty) token sets. -/
theorem c4_jaccard_properties (w₁ w₂ : List String) :
    jaccard_similarity w₁ w₂ = jaccard_similarity w₂ w₁
    ∧ 0 ≤ jaccard_similarity w₁ w₂
    ∧ jaccard_similarity w₁ w₂ ≤ 1
    ∧ (w₁.toFinset = w₂.toFinset → w₁.toFinset ≠ ∅ → jaccard_similarity w₁ w₂ = 1)
    ∧ (w₁.toFinset ∩ w₂.toFinset = ∅ → jaccard_similarity w₁ w₂ = 0)
    ∧ (w₁.toFinset = ∅ → w₂.toFinset = ∅ → jaccard_similarity w₁ w₂ = 0) := by
  refine ⟨?_, ?_, ?_, ?_, ?_, ?_⟩
  · unfold jaccard_similarity
    dsimp only
    rw [Finset.inter_comm, Finset.union_comm]
  · unfold jaccard_similarity
    dsimp only
    split
    · exact le_refl 0
    · exact div_nonneg (Nat.cast_nonneg _) (Nat.cast_nonneg _)
  · unfold jaccard_similarity
    dsimp only
    split
    · exact zero_le_one
    · apply div_le_one_of_le₀
      · exact_mod_cast Finset.card_le_card
          (subset_trans Finset.inter_subset_left Finset.subset_union_left)
      · exact Nat.cast_nonneg _
  · intro h hne
    unfold jaccard_similarity
    dsimp only
    rw [← h, Finset.inter_self, Finset.union_self]
    split
    · exact absurd (by assumption) hne
    · apply div_self
      intro hc
      exact hne (Finset.card_eq_zero.mp (by exact_mod_cast hc))
  · intro h
    unfold jaccard_similarity
    dsimp only
    split
    · rfl
    · rw [h, Finset.card_empty]
      simp
  · intro h1 h2
    unfold jaccard_similarity
    dsimp only
    rw [h1, h2]
    simp

/-- C4 witness: the properties instantiated at concrete token lists. -/
theorem c4_jaccard_properties_witness :
    jaccard_similarity ["the", "cat", "sat"] ["the", "cat", "ran"]
      = jaccard_similarity ["the", "cat", "ran"] ["the", "cat", "sat"]
    ∧ jaccard_similarity ["a", "a"] ["a"] = 1
    ∧ jaccard_similarity ["a"] ["b"] = 0 := by
  refine ⟨(c4_jaccard_properties _ _).1, ?_, ?_⟩
  · exact (c4_jaccard_properties ["a", "a"] ["a"]).2.2.2.1 (by decide) (by decide)
  · exact (c4_jaccard_properties ["a"] ["b"]).2.2.2.2.1 (by decide)

/-- A JSON record loaded from `processed/*.json`, tagged with its filename
(`_filename`); the `"text"` field may be absent (`d.get("text", "")`). -/
structure ProcessedDocJson where
  filename : String
  text : Option String
deriving DecidableEq

/-- `d.get("text", "")`. -/
def getText (d : ProcessedDocJson) : String := d.text.getD ""

/-- First occurrences of the elements of a list, in order — the key order of a
Python `dict`/`Counter` built by inserting the list left to right. -/
def dedupFirstAux {α : Type} [DecidableEq α] (seen : List α) : List α → List α
  | [] => []
  | x :: xs => if x ∈ seen then dedupFirstAux seen xs else x :: dedupFirstAux (x :: seen) xs

/-- Distinct elements in first-occurrence order. -/
def dedupFirst {α : Type} [DecidableEq α] (l : List α) : List α := dedupFirstAux [] l

/-- `collections.Counter(l).items()`: each distinct element with its
occurrence count, keys in first-occurrence (insertion) order. -/
def counterItems {α : Type} [DecidableEq α] (l : List α) : List (α × ℕ) :=
  (dedupFirst l).map (fun x => (x, l.count x))

/-- Stable insertion: `x` is placed before the first element `y` with
`le x y`; with `le x y = (key y ≤ key x)` this realises a stable
descending sort by `key`. -/
def insertSorted {α : Type} (le : α → α → Bool) (x : α) : List α → List α
  | [] => [x]
  | y :: ys => if le x y then x :: y :: ys else y :: insertSorted le x ys

/-- Stable insertion sort, the model of Python's stable `sorted`. -/
def sortStable {α : Type} (le : α → α → Bool) : List α → List α
  | [] => []
  | x :: xs => insertSorted le x (sortStable le xs)

/-- Descending-count comparator for `most_common` (ties keep order). -/
def countGe {α : Type} (a b : α × ℕ) : Bool := decide (b.2 ≤ a.2)

/-- Ascending-filename comparator for `sorted(...)` on paths. -/
def nameLe (a b : String) : Bool := decide (a ≤ b)

/-- `Counter.most_common(k)` on a counter's item list: stable sort by
descending count (ties keep insertion order, per `heapq.nlargest` =
`sorted(..., reverse=True)[:n]`), then take the first `k`. -/
def most_common {α : Type} (k : ℕ) (items : List (α × ℕ)) : List (α × ℕ) :=
  (sortStable countGe items).take k

/-- `analyze.ngrams`: contiguous token windows of width `n`
(`[]` when `n ≤ 0` or the window does not fit). -/
def ngrams (tokens : List String) (n : ℕ) : List (List String) :=
  if n = 0 then []
  else if tokens.length < n then []
  else (List.range (tokens.length - n + 1)).map (fun i => (tokens.drop i).take n)

/-- Python `dict` assignment `m[k] = v`: update in place if the key exists
(keeping its position), else append at the end. -/
def dictInsert {α β : Type} [DecidableEq α] (k : α) (v : β) :
    List (α × β) → List (α × β)
  | [] => [(k, v)]
  | (k', v') :: rest => if k' = k then (k, v) :: rest else (k', v') :: dictInsert k v rest

/-- `per_doc_tokens`: the dict from filename to that document's tokens,
built over the loaded documents in order. -/
def perDocTokens (docs : List ProcessedDocJson) : List (String × List String) :=
  docs.foldl (fun m d => dictInsert d.filename (tokenize (getText d)) m) []

/-- `itertools.combinations(l, 2)`: all unordered pairs, ordered first by the
first component's position, then the second's. -/
def listPairs {α : Type} : List α → List (α × α)
  | [] => []
  | x :: xs => (xs.map (fun y => (x, y))) ++ listPairs xs

/-- `round(x, 3)`: rounding to three decimal places (modelled over `ℚ`). -/
def round3 (q : ℚ) : ℚ := ((round (q * 1000) : ℤ) : ℚ) / 1000

structure TopWordEntry where
  word : String
  count : ℕ
  frequency : ℚ
deriving DecidableEq

structure NgramEntry where
  gram : String
  count : ℕ
deriving DecidableEq

structure SimRow where
  doc1 : String
  doc2 : String
  similarity : ℚ
deriving DecidableEq

structure Readability where
  avg_sentence_length : ℚ
  avg_word_length : ℚ
  complexity_score : ℚ
deriving DecidableEq

/-- The analyzer's final report (`final_report.json`). -/
structure CorpusReport where
  processing_timestamp : String
  documents_processed : ℕ
  total_words : ℕ
  unique_words : ℕ
  top_100_words : List TopWordEntry
  document_similarity : List SimRow
  top_bigrams : List NgramEntry
  top_trigrams : List NgramEntry
  readability : Readability
deriving DecidableEq

/-- The `all_tokens` accumulator: every document's tokens, concatenated in
document order. -/
def allTokens (docs : List ProcessedDocJson) : List String :=
  docs.flatMap (fun d => tokenize (getText d))

/-- The loop accumulators `total_words`, `total_word_len`, `total_sentences`
of `compute_global_statistics`. -/
def docTotals (docs : List ProcessedDocJson) : ℕ × ℕ × ℕ :=
  docs.foldl (fun acc d =>
    let toks := tokenize (getText d)
    (acc.1 + toks.length,
     acc.2.1 + (toks.map String.length).sum,
     acc.2.2 + (split_sentences (getText d)).length))
    (0, 0, 0)

/-- `analyze.compute_global_statistics`. -/
def compute_global_statistics (now : String) (docs : List ProcessedDocJson) :
    CorpusReport :=
  let totals := docTotals docs
  let total_words := totals.1
  let total_word_len := totals.2.1
  let total_sentences := totals.2.2
  let all_tokens := allTokens docs
  let word_counts := counterItems all_tokens
  let top_100_words := (most_common 100 word_counts).map (fun wc =>
    ({ word := wc.1, count := wc.2,
       frequency := if total_words = 0 then 0 else (wc.2 : ℚ) / (total_words : ℚ) } :
       TopWordEntry))
  let per_doc := perDocTokens docs
  let top_bigrams :=
    (most_common 50 (counterItems (per_doc.flatMap (fun kv => ngrams kv.2 2)))).map
      (fun gc => ({ gram := String.intercalate " " gc.1, count := gc.2 } : NgramEntry))
  let top_trigrams :=
    (most_common 50 (counterItems (per_doc.flatMap (fun kv => ngrams kv.2 3)))).map
      (fun gc => ({ gram := String.intercalate " " gc.1, count := gc.2 } : NgramEntry))
  let similarity_rows := (listPairs per_doc).map (fun pq =>
    ({ doc1 := pq.1.1, doc2 := pq.2.1,
       similarity := jaccard_similarity pq.1.2 pq.2.2 } : SimRow))
  let avg_sentence_length : ℚ :=
    if total_sentences = 0 then 0 else (total_words : ℚ) / (total_sentences : ℚ)
  let avg_word_length : ℚ :=
    if total_words = 0 then 0 else (total_word_len : ℚ) / (total_words : ℚ)
  let complex_words := (all_tokens.filter (fun w => 7 ≤ w.length)).length
  let complexity : ℚ := 0.4 * (avg_sentence_length +
    (if total_words = 0 then 0 else (100 : ℚ) * (complex_words : ℚ) / (total_words : ℚ)))
  { processing_timestamp := now,
    documents_processed := docs.length,
    total_words := total_words,
    unique_words := word_counts.length,
    top_100_words := top_100_words,
    document_similarity := similarity_rows,
    top_bigrams := top_bigrams,
    top_trigrams := top_trigrams,
    readability := { avg_sentence_length := round3 avg_sentence_length,
                     avg_word_length := round3 avg_word_length,
                     complexity_score := round3 complexity } }

/-- A file in `processed/` as seen by `load_processed_docs`: its name and,
if it parses as JSON, its optional `"text"` field (`none` = malformed JSON,
logged and skipped). -/
structure RawProcessedFile where
  name : String
  parsed : Option (Option String)
deriving DecidableEq

/-- `analyze.load_processed_docs`: glob results sorted by filename; malformed
files are skipped; each document is tagged with its filename. -/
def load_processed_docs (files : List RawProcessedFile) : List ProcessedDocJson :=
  (sortStable (fun a b => nameLe a.name b.name) files).filterMap
    (fun f => f.parsed.map (fun t => { filename := f.name, text := t }))

/-- The hard-coded empty report written when no documents are found. -/
def emptyReport (now : String) : CorpusReport :=
  { processing_timestamp := now, documents_processed := 0, total_words := 0,
    unique_words := 0, top_100_words := [], document_similarity := [],
    top_bigrams := [], top_trigrams := [],
    readability := { avg_sentence_length := 0, avg_word_length := 0,
                     complexity_score := 0 } }

/-- `analyze.main` after the marker wait: load, then either the empty report
or the computed one. -/
def analyzerMain (now : String) (files : List RawProcessedFile) : CorpusReport :=
  let docs := load_processed_docs files
  if docs.isEmpty then emptyReport now else compute_global_statistics now docs

/-- Case-insensitive prefix test: the pattern (given in lowercase) matches
the head of the text, comparing lowercased characters (`re.IGNORECASE`). -/
def isPrefixCI : List Char → List Char → Bool
  | [], _ => true
  | _ :: _, [] => false
  | p :: ps, c :: cs => (c.toLower == p) && isPrefixCI ps cs

/-- Does the pattern match (case-insensitively) at some position of the text? -/
def existsPrefixCI (pat : List Char) : List Char → Bool
  | [] => false
  | c :: cs => isPrefixCI pat (c :: cs) || existsPrefixCI pat cs

/-- Drop through the earliest case-insensitive occurrence of `pat`, returning
the remainder after it (the non-greedy `.*?pat`); `none` if `pat` never occurs. -/
def dropThroughCI (pat : List Char) : List Char → Option (List Char)
  | [] => none
  | c :: cs =>
    if isPrefixCI pat (c :: cs) then some ((c :: cs).drop pat.length)
    else dropThroughCI pat cs

/-- Try to match `openPat[^>]*>.*?closePat` (case-insensitive, dot-all,
non-greedy) at the head of the text; on success return the remainder
after the whole element. -/
def tryElem (openPat closePat : List Char) (l : List Char) : Option (List Char) :=
  if isPrefixCI openPat l then
    match (l.drop openPat.length).dropWhile (fun c => !(c == '>')) with
    | _ :: body => dropThroughCI closePat body
    | [] => none
  else none

/-- `re.sub(openPat + r'[^>]*>.*?' + closePat, '', html)` with fuel (one unit
per scan step; `l.length` units always suffice). -/
def removeElemsFuel (openPat closePat : List Char) : ℕ → List Char → List Char
  | 0, l => l
  | _ + 1, [] => []
  | n + 1, c :: cs =>
    match tryElem openPat closePat (c :: cs) with
    | some rest => removeElemsFuel openPat closePat n rest
    | none => c :: removeElemsFuel openPat closePat n cs

/-- Remove every non-overlapping `openPat…closePat` element, left to right. -/
def removeElems (openPat closePat : List Char) (l : List Char) : List Char :=
  removeElemsFuel openPat closePat l.length l

def hrefPat : List Char := ['h', 'r', 'e', 'f', '=']

def srcPat : List Char := ['s', 'r', 'c', '=']

def scriptOpen : List Char := ['<', 's', 'c', 'r', 'i', 'p', 't']

def scriptClose : List Char := ['<', '/', 's', 'c', 'r', 'i', 'p', 't', '>']

def styleOpen : List Char := ['<', 's', 't', 'y', 'l', 'e']

def styleClose : List Char := ['<', '/', 's', 't', 'y', 'l', 'e', '>']

/-- The attribute-value character class `[^'" >]`. -/
def isUrlChar (c : Char) : Bool :=
  !(c == '\'' || c == '"' || c == ' ' || c == '>')

/-- The optional opening quote `['"]?` after `href=`/`src=`. -/
def stripQuote : List Char → List Char
  | [] => []
  | q :: rest => if q == '\'' || q == '"' then rest else q :: rest

theorem length_stripQuote_le (l : List Char) : (stripQuote l).length ≤ l.length := by
  cases l with
  | nil => simp [stripQuote]
  | cons q rest =>
    simp only [stripQuote]
    split <;> simp

theorem length_dropWhile_lt_of_takeWhile {p : Char → Bool} {l : List Char}
    (h : (l.takeWhile p).isEmpty = false) : (l.dropWhile p).length < l.length := by
  cases l with
  | nil => simp [List.takeWhile] at h
  | cons c cs =>
    by_cases hc : p c
    · rw [List.dropWhile_cons_of_pos hc]
      exact Nat.lt_succ_of_le (length_dropWhile_le p cs)
    · rw [List.takeWhile_cons_of_neg hc] at h
      simp [List.isEmpty] at h

/-- Fuel-driven scanner for
`re.findall(pat + r'[\'"]?([^\'" >]+)', html, re.IGNORECASE)`: scan left to
right; at a pattern match, skip an optional quote, capture the maximal
non-empty run of attribute-value characters, and resume after it; a failed
capture (or no pattern match) advances the scan by one character. -/
def findAllF (pat : List Char) : ℕ → List Char → List (List Char)
  | 0, _ => []
  | _ + 1, [] => []
  | n + 1, c :: cs =>
    if isPrefixCI pat (c :: cs) then
      let afterQ := stripQuote ((c :: cs).drop pat.length)
      if (afterQ.takeWhile isUrlChar).isEmpty then findAllF pat n cs
      else afterQ.takeWhile isUrlChar :: findAllF pat n (afterQ.dropWhile isUrlChar)
    else findAllF pat n cs

theorem length_afterQ_le (pat : List Char) (c : Char) (cs : List Char) :
    (stripQuote ((c :: cs).drop pat.length)).length ≤ cs.length + 1 := by
  refine le_trans (length_stripQuote_le _) ?_
  exact le_trans (List.Sublist.length_le (List.drop_sublist _ _)) (by simp)

theorem findAllF_congr : ∀ (n m : ℕ) (pat l : List Char),
    l.length ≤ n → l.length ≤ m → findAllF pat n l = findAllF pat m l := by
  intro n
  induction n with
  | zero =>
    intro m pat l h1 _
    have hl : l = [] := List.eq_nil_of_length_eq_zero (Nat.le_zero.mp h1)
    subst hl
    cases m <;> rfl
  | succ n ih =>
    intro m pat l h1 h2
    cases l with
    | nil => cases m <;> rfl
    | cons c cs =>
      cases m with
      | zero => simp at h2
      | succ m' =>
        have hcs1 : cs.length ≤ n := by simpa using h1
        have hcs2 : cs.length ≤ m' := by simpa using h2
        show findAllF pat (n + 1) (c :: cs) = findAllF pat (m' + 1) (c :: cs)
        unfold findAllF
        by_cases hpre : isPrefixCI pat (c :: cs) = true
        · rw [if_pos hpre, if_pos hpre]
          dsimp only
          by_cases hcap :
              ((stripQuote ((c :: cs).drop pat.length)).takeWhile isUrlChar).isEmpty = true
          · rw [if_pos hcap, if_pos hcap, ih m' pat cs hcs1 hcs2]
          · rw [if_neg hcap, if_neg hcap]
            have hdw : ((stripQuote ((c :: cs).drop pat.length)).dropWhile isUrlChar).length
                ≤ cs.length := by
              have hlt := length_dropWhile_lt_of_takeWhile (p := isUrlChar)
                (l := stripQuote ((c :: cs).drop pat.length))
                (Bool.eq_false_iff.mpr hcap)
              have := length_afterQ_le pat c cs
              omega
            rw [ih m' pat _ (le_trans hdw hcs1) (le_trans hdw hcs2)]
        · rw [if_neg hpre, if_neg hpre, ih m' pat cs hcs1 hcs2]

/-- The harvested attribute values of a text (`l.length` fuel units suffice). -/
def findAll (pat l : List Char) : List (List Char) := findAllF pat l.length l

theorem findAll_nil (pat : List Char) : findAll pat [] = [] := rfl

theorem findAll_cons (pat : List Char) (c : Char) (cs : List Char) :
    findAll pat (c :: cs)
      = if isPrefixCI pat (c :: cs) then
          let afterQ := stripQuote ((c :: cs).drop pat.length)
          if (afterQ.takeWhile isUrlChar).isEmpty then findAll pat cs
          else afterQ.takeWhile isUrlChar :: findAll pat (afterQ.dropWhile isUrlChar)
        else findAll pat cs := by
  show findAllF pat (cs.length + 1) (c :: cs) = _
  unfold findAllF
  by_cases hpre : isPrefixCI pat (c :: cs) = true
  · rw [if_pos hpre, if_pos hpre]
    dsimp only
    by_cases hcap :
        ((stripQuote ((c :: cs).drop pat.length)).takeWhile isUrlChar).isEmpty = true
    · rw [if_pos hcap, if_pos hcap]
      rfl
    · rw [if_neg hcap, if_neg hcap]
      have hdw : ((stripQuote ((c :: cs).drop pat.length)).dropWhile isUrlChar).length
          ≤ cs.length := by
        have hlt := length_dropWhile_lt_of_takeWhile (p := isUrlChar)
          (l := stripQuote ((c :: cs).drop pat.length))
          (Bool.eq_false_iff.mpr hcap)
        have := length_afterQ_le pat c cs
        omega
      rw [findAllF_congr cs.length _ pat _ hdw (le_refl _)]
      rfl
  · rw [if_neg hpre, if_neg hpre]
    rfl

/-- Fuel-driven scanner for `re.sub(r'<[^>]+>', ' ', html)`: replace each tag
(a `<`, at least one non-`>` character, then `>`) with a single space. -/
def removeTagsF : ℕ → List Char → List Char
  | 0, l => l
  | _ + 1, [] => []
  | n + 1, c :: cs =>
    if c == '<' then
      if (cs.takeWhile (fun x => !(x == '>'))).isEmpty then c :: removeTagsF n cs
      else if (cs.dropWhile (fun x => !(x == '>'))).isEmpty then c :: removeTagsF n cs
      else ' ' :: removeTagsF n (cs.dropWhile (fun x => !(x == '>'))).tail
    else c :: removeTagsF n cs

/-- Tag removal (`l.length` fuel units always suffice). -/
def removeTags (l : List Char) : List Char := removeTagsF l.length l

/-- Fuel-driven scanner for `re.sub(r'\s+', ' ', text)`: collapse whitespace
runs to single spaces. -/
def collapseWSF : ℕ → List Char → List Char
  | 0, l => l
  | _ + 1, [] => []
  | n + 1, c :: cs =>
    if isWS c then ' ' :: collapseWSF n (cs.dropWhile isWS) else c :: collapseWSF n cs

/-- Whitespace collapsing (`l.length` fuel units always suffice). -/
def collapseWS (l : List Char) : List Char := collapseWSF l.length l

/-- `.strip()`: drop leading and trailing whitespace. -/
def stripEnds (l : List Char) : List Char :=
  ((l.dropWhile isWS).reverse.dropWhile isWS).reverse

/-- `process.strip_html`: remove script and style elements, harvest `href=`
and `src=` values from the result, then strip remaining tags and collapse
whitespace. Returns `(text, links, images)`. -/
def strip_html (html : List Char) : List Char × List (List Char) × List (List Char) :=
  let h1 := removeElems styleOpen styleClose (removeElems scriptOpen scriptClose html)
  let links := findAll hrefPat h1
  let images := findAll srcPat h1
  let text := stripEnds (collapseWS (removeTags h1))
  (text, links, images)

/-- Try to match `<\s*p\b[^>]*>` (case-insensitive) at the head of the text;
on success return the remainder after the tag. -/
def tryPTag (l : List Char) : Option (List Char) :=
  match l with
  | [] => none
  | c :: cs =>
    if c == '<' then
      match cs.dropWhile isWS with
      | p :: rest2 =>
        if p == 'p' || p == 'P' then
          if (match rest2.head? with | some r => !isWordChar r | none => true) then
            match rest2.dropWhile (fun x => !(x == '>')) with
            | _ :: rest3 => some rest3
            | [] => none
          else none
        else none
      | [] => none
    else none

/-- `len(re.findall(r'<\s*p\b[^>]*>', html, re.IGNORECASE))` with fuel. -/
def countPTagsFuel : ℕ → List Char → ℕ
  | 0, _ => 0
  | _ + 1, [] => 0
  | n + 1, c :: cs =>
    match tryPTag (c :: cs) with
    | some rest => 1 + countPTagsFuel n rest
    | none => countPTagsFuel n cs

/-- Number of opening `<p …>` tags in the original markup. -/
def countPTags (l : List Char) : ℕ := countPTagsFuel l.length l

structure DocStatistics where
  word_count : ℕ
  sentence_count : ℕ
  paragraph_count : ℕ
  avg_word_length : ℚ
deriving DecidableEq

/-- `process.compute_statistics`. -/
def compute_statistics (text : String) (original_html : String) : DocStatistics :=
  let words := wordRuns text.data
  let word_count := words.length
  let sentence_count := (processorSentences text.data).length
  let para := countPTags original_html.data
  let paragraph_count := if para = 0 then (if text.data.isEmpty then 0 else 1) else para
  let avg_word_length :=
    round3 (if word_count = 0 then 0 else ((words.map List.length).sum : ℚ) / (word_count : ℚ))
  ⟨word_count, sentence_count, paragraph_count, avg_word_length⟩

/-- The record written for one input file (`process.process_one_file`). -/
structure ProcessedDocument where
  source_file : String
  text : String
  statistics : DocStatistics
  links : List String
  images : List String
  processed_at : String
deriving DecidableEq

/-- An input file in `raw/`: its name and its content, `none` when reading
or processing the file raises (the per-file failure the batch must survive). -/
structure RawHtmlFile where
  name : String
  content : Option String
deriving DecidableEq

/-- `process.process_one_file`: `none` exactly when the file fails. -/
def process_one_file (now : String) (f : RawHtmlFile) : Option ProcessedDocument :=
  f.content.map (fun html =>
    let res := strip_html html.data
    let text := String.mk res.1
    { source_file := f.name, text := text,
      statistics := compute_statistics text html,
      links := res.2.1.map (fun cs => String.mk cs),
      images := res.2.2.map (fun cs => String.mk cs),
      processed_at := now })

/-- `os.path.splitext(name)[0]`. -/
def stemOf (s : String) : String :=
  let r := s.data.reverse
  let ext := r.takeWhile (fun c => !(c == '.'))
  if ext.length = r.length then s
  else
    let stemRev := r.drop (ext.length + 1)
    if stemRev.all (fun c => c == '.') then s
    else String.mk stemRev.reverse

/-- Observable actions of the processor's `main`. -/
inductive PEvent where
  | wroteDoc (path : String) (doc : ProcessedDocument)
  | logged (msg : String)
  | wroteMarker (processed_files : ℕ)
deriving DecidableEq

/-- One iteration of the processing loop: on success write the output record
and bump the counter, on failure log the error and continue. -/
def processorStep (now : String) (acc : List PEvent × ℕ) (f : RawHtmlFile) :
    List PEvent × ℕ :=
  match process_one_file now f with
  | some doc =>
      (acc.1 ++ [PEvent.wroteDoc (stemOf f.name ++ ".json") doc,
                 PEvent.logged ("Processed " ++ f.name)], acc.2 + 1)
  | none => (acc.1 ++ [PEvent.logged ("ERROR processing " ++ f.name)], acc.2)

/-- `process.main` after the marker wait, as its trace of observable events:
the sorted file list is either empty (marker `0` at once) or processed
fail-soft, with the completion marker written last, exactly once. -/
def processorMain (now : String) (files : List RawHtmlFile) : List PEvent :=
  let html_files := sortStable (fun a b => nameLe a.name b.name) files
  if html_files.isEmpty then
    [PEvent.logged "No HTML files found in /shared/raw/. Writing empty process marker.",
     PEvent.wroteMarker 0]
  else
    let r := html_files.foldl (processorStep now) ([], 0)
    r.1 ++ [PEvent.wroteMarker r.2]

theorem insertSorted_perm {α : Type} (le : α → α → Bool) (x : α) (l : List α) :
    List.Perm (insertSorted le x l) (x :: l) := by
  induction l with
  | nil => exact List.Perm.refl _
  | cons y ys ih =>
    unfold insertSorted
    split
    · exact List.Perm.refl _
    · exact (ih.cons y).trans (List.Perm.swap x y ys)

theorem sortStable_perm {α : Type} (le : α → α → Bool) (l : List α) :
    List.Perm (sortStable le l) l := by
  induction l with
  | nil => exact List.Perm.refl _
  | cons x xs ih => exact (insertSorted_perm le x _).trans (ih.cons x)

/-- Marker events among the processor's observable actions. -/
def isMarkerEv : PEvent → Bool
  | .wroteMarker _ => true
  | _ => false

/-- The events one file contributes to the processing loop's trace. -/
def perFileEvents (now : String) (f : RawHtmlFile) : List PEvent :=
  match process_one_file now f with
  | some doc => [PEvent.wroteDoc (stemOf f.name ++ ".json") doc,
                 PEvent.logged ("Processed " ++ f.name)]
  | none => [PEvent.logged ("ERROR processing " ++ f.name)]

theorem processorStep_eq (now : String) (acc : List PEvent × ℕ) (f : RawHtmlFile) :
    processorStep now acc f
      = (acc.1 ++ perFileEvents now f,
         acc.2 + if f.content.isSome then 1 else 0) := by
  unfold processorStep perFileEvents process_one_file
  cases f.content <;> simp

theorem processor_foldl (now : String) (files : List RawHtmlFile) :
    ∀ acc : List PEvent × ℕ,
      files.foldl (processorStep now) acc
        = (acc.1 ++ files.flatMap (perFileEvents now),
           acc.2 + (files.filter (fun f => f.content.isSome)).length) := by
  induction files with
  | nil => intro acc; simp
  | cons f fs ih =>
    intro acc
    rw [List.foldl_cons, processorStep_eq, ih]
    cases hc : f.content
    · refine Prod.ext ?_ ?_ <;> simp [hc, List.filter_cons]
    · refine Prod.ext ?_ ?_ <;> simp [hc, List.filter_cons]
      omega

theorem perFileEvents_no_marker (now : String) (f : RawHtmlFile) :
    (perFileEvents now f).filter (fun e => isMarkerEv e) = [] := by
  unfold perFileEvents
  cases process_one_file now f <;> simp [isMarkerEv]

theorem flatMap_no_marker (now : String) (l : List RawHtmlFile) :
    (l.flatMap (perFileEvents now)).filter (fun e => isMarkerEv e) = [] := by
  induction l with
  | nil => simp
  | cons f fs ih =>
    simp [List.filter_append, perFileEvents_no_marker, ih]

/-- C3: a failing file is logged and skipped while the batch continues
(every other file still produces its events), and after all files are
attempted exactly one completion marker is written, whose count is the
number of successfully processed files, failures excluded. -/
theorem c3_fail_soft (now : String) (files : List RawHtmlFile) :
    (processorMain now files).filter (fun e => isMarkerEv e)
      = [PEvent.wroteMarker ((files.filter (fun f => f.content.isSome)).length)]
    ∧ (∀ f ∈ files, f.content = none →
        PEvent.logged ("ERROR processing " ++ f.name) ∈ processorMain now files)
    ∧ (∀ f ∈ files, f.content.isSome = true →
        ∃ doc, PEvent.wroteDoc (stemOf f.name ++ ".json") doc ∈ processorMain now files) := by
  have hperm := sortStable_perm (fun a b => nameLe a.name b.name) files
  unfold processorMain
  simp only []
  by_cases hS : (sortStable (fun a b => nameLe a.name b.name) files).isEmpty
  · have hSnil : sortStable (fun a b => nameLe a.name b.name) files = [] :=
      List.isEmpty_iff.mp hS
    have hnil : files = [] := (hSnil ▸ hperm).symm.eq_nil
    subst hnil
    refine ⟨by simp [hSnil, isMarkerEv], by simp, by simp⟩
  · rw [if_neg hS, processor_foldl]
    have hcnt : ((sortStable (fun a b => nameLe a.name b.name) files).filter
        (fun f => f.content.isSome)).length
        = (files.filter (fun f => f.content.isSome)).length :=
      (hperm.filter _).length_eq
    refine ⟨?_, ?_, ?_⟩
    · dsimp only
      rw [List.nil_append, List.filter_append, flatMap_no_marker]
      simp [isMarkerEv, hcnt]
    · intro f hf hfail
      have hfS : f ∈ sortStable (fun a b => nameLe a.name b.name) files :=
        hperm.mem_iff.mpr hf
      have : PEvent.logged ("ERROR processing " ++ f.name)
          ∈ (sortStable (fun a b => nameLe a.name b.name) files).flatMap
              (perFileEvents now) := by
        refine List.mem_flatMap.mpr ⟨f, hfS, ?_⟩
        unfold perFileEvents process_one_file
        rw [hfail]
        simp
      simp [this]
    · intro f hf hsucc
      have hfS : f ∈ sortStable (fun a b => nameLe a.name b.name) files :=
        hperm.mem_iff.mpr hf
      obtain ⟨html, hh⟩ := Option.isSome_iff_exists.mp hsucc
      obtain ⟨doc, hdoc⟩ : ∃ doc, process_one_file now f = some doc := by
        unfold process_one_file
        rw [hh]
        exact ⟨_, rfl⟩
      refine ⟨doc, ?_⟩
      have : PEvent.wroteDoc (stemOf f.name ++ ".json") doc
          ∈ (sortStable (fun a b => nameLe a.name b.name) files).flatMap
              (perFileEvents now) := by
        refine List.mem_flatMap.mpr ⟨f, hfS, ?_⟩
        unfold perFileEvents
        rw [hdoc]
        simp
      simp [this]

/-- C3 witness: a two-file batch where one file fails. -/
theorem c3_fail_soft_witness :
    (processorMain "T" [⟨"b.html", some "<p>Hi.</p>"⟩, ⟨"a.html", none⟩]).filter
        (fun e => isMarkerEv e) = [PEvent.wroteMarker 1]
    ∧ PEvent.logged ("ERROR processing " ++ "a.html")
        ∈ processorMain "T" [⟨"b.html", some "<p>Hi.</p>"⟩, ⟨"a.html", none⟩]
    ∧ ∃ doc, PEvent.wroteDoc (stemOf "b.html" ++ ".json") doc
        ∈ processorMain "T" [⟨"b.html", some "<p>Hi.</p>"⟩, ⟨"a.html", none⟩] := by
  refine ⟨?_, ?_, ?_⟩
  · exact ((c3_fail_soft "T" _).1).trans (by decide)
  · exact (c3_fail_soft "T" _).2.1 ⟨"a.html", none⟩ (by decide) rfl
  · exact (c3_fail_soft "T" _).2.2 ⟨"b.html", some "<p>Hi.</p>"⟩ (by decide) rfl

/-- C5: with zero input HTML files the extraction stage still writes a
marker with `processed_files = 0`; with zero loaded ProcessedDocuments the
analytics stage still emits the well-formed empty report, with all counts
zero and all list-valued fields empty. -/
theorem c5_empty_inputs (now t : String) (files : List RawProcessedFile)
    (h : load_processed_docs files = []) :
    processorMain now []
      = [PEvent.logged
           "No HTML files found in /shared/raw/. Writing empty process marker.",
         PEvent.wroteMarker 0]
    ∧ analyzerMain t files = emptyReport t
    ∧ (emptyReport t).documents_processed = 0
    ∧ (emptyReport t).total_words = 0
    ∧ (emptyReport t).unique_words = 0
    ∧ (emptyReport t).top_100_words = []
    ∧ (emptyReport t).document_similarity = []
    ∧ (emptyReport t).top_bigrams = []
    ∧ (emptyReport t).top_trigrams = []
    ∧ (emptyReport t).readability = ⟨0, 0, 0⟩ := by
  refine ⟨rfl, ?_, rfl, rfl, rfl, rfl, rfl, rfl, rfl, rfl⟩
  unfold analyzerMain
  rw [h]
  rfl

/-- C5 witness: the empty-input scenario instantiated. -/
theorem c5_empty_inputs_witness :
    processorMain "T" []
      = [PEvent.logged
           "No HTML files found in /shared/raw/. Writing empty process marker.",
         PEvent.wroteMarker 0]
    ∧ analyzerMain "T" [] = emptyReport "T"
    ∧ (emptyReport "T").documents_processed = 0
    ∧ (emptyReport "T").total_words = 0
    ∧ (emptyReport "T").unique_words = 0
    ∧ (emptyReport "T").top_100_words = []
    ∧ (emptyReport "T").document_similarity = []
    ∧ (emptyReport "T").top_bigrams = []
    ∧ (emptyReport "T").top_trigrams = []
    ∧ (emptyReport "T").readability = ⟨0, 0, 0⟩ :=
  c5_empty_inputs "T" "T" [] rfl

theorem mem_insertSorted {α : Type} {le : α → α → Bool} {x a : α} {l : List α} :
    a ∈ insertSorted le x l ↔ a = x ∨ a ∈ l := by
  rw [(insertSorted_perm le x l).mem_iff, List.mem_cons]

theorem insertSorted_pairwise {α : Type} (le : α → α → Bool)
    (htot : ∀ a b, le a b = true ∨ le b a = true)
    (htrans : ∀ a b c, le a b = true → le b c = true → le a c = true)
    (x : α) (l : List α) (hl : l.Pairwise (fun a b => le a b = true)) :
    (insertSorted le x l).Pairwise (fun a b => le a b = true) := by
  induction l with
  | nil => simp [insertSorted]
  | cons y ys ih =>
    rcases List.pairwise_cons.mp hl with ⟨hy, hys⟩
    unfold insertSorted
    by_cases hxy : le x y = true
    · rw [if_pos hxy]
      refine List.pairwise_cons.mpr ⟨?_, hl⟩
      intro b hb
      rcases List.mem_cons.mp hb with hb | hb
      · exact hb ▸ hxy
      · exact htrans x y b hxy (hy b hb)
    · rw [if_neg hxy]
      have hyx : le y x = true := (htot x y).resolve_left hxy
      refine List.pairwise_cons.mpr ⟨?_, ih hys⟩
      intro b hb
      rcases mem_insertSorted.mp hb with hb | hb
      · exact hb ▸ hyx
      · exact hy b hb

theorem sortStable_pairwise {α : Type} (le : α → α → Bool)
    (htot : ∀ a b, le a b = true ∨ le b a = true)
    (htrans : ∀ a b c, le a b = true → le b c = true → le a c = true)
    (l : List α) :
    (sortStable le l).Pairwise (fun a b => le a b = true) := by
  induction l with
  | nil => exact List.Pairwise.nil
  | cons x xs ih => exact insertSorted_pairwise le htot htrans x _ ih

/-- Two permuted lists that are both sorted by a relation antisymmetric on
their members are equal. -/
theorem eq_of_perm_of_pairwise {α : Type} {R : α → α → Prop} :
    ∀ l₁ l₂ : List α, List.Perm l₁ l₂
      → (∀ a ∈ l₁, ∀ b ∈ l₁, R a b → R b a → a = b)
      → l₁.Pairwise R → l₂.Pairwise R → l₁ = l₂ := by
  intro l₁
  induction l₁ with
  | nil =>
    intro l₂ hp _ _ _
    exact (hp.nil_eq).symm ▸ rfl
  | cons x t₁ ih =>
    intro l₂ hp hasym h₁ h₂
    cases l₂ with
    | nil => exact absurd hp.symm.nil_eq (by simp)
    | cons y t₂ =>
      rcases List.pairwise_cons.mp h₁ with ⟨hx, ht₁⟩
      rcases List.pairwise_cons.mp h₂ with ⟨hy, ht₂⟩
      by_cases hxy : x = y
      · subst hxy
        have htp : List.Perm t₁ t₂ := hp.cons_inv
        have : t₁ = t₂ := by
          refine ih t₂ htp ?_ ht₁ ht₂
          intro a ha b hb
          exact hasym a (List.mem_cons_of_mem x ha) b (List.mem_cons_of_mem x hb)
        rw [this]
      · exfalso
        have hxl₂ : x ∈ y :: t₂ := hp.mem_iff.mp (List.mem_cons_self x t₁)
        have hxt₂ : x ∈ t₂ := by
          rcases List.mem_cons.mp hxl₂ with h | h
          · exact absurd h hxy
          · exact h
        have hyl₁ : y ∈ x :: t₁ := hp.mem_iff.mpr (List.mem_cons_self y t₂)
        have hyt₁ : y ∈ t₁ := by
          rcases List.mem_cons.mp hyl₁ with h | h
          · exact absurd h.symm hxy
          · exact h
        exact hxy (hasym x (List.mem_cons_self x t₁) y hyl₁ (hx y hyt₁) (hy x hxt₂))

/-- The report with its timestamp blanked out. -/
def stripTimestamp (r : CorpusReport) : CorpusReport :=
  { r with processing_timestamp := "" }

/-- C9: given the same set of processed-document files (any two orderings of
one duplicate-free file set), two analytics runs produce identical reports
except for `processing_timestamp`. -/
theorem c9_determinism (t₁ t₂ : String) (files₁ files₂ : List RawProcessedFile)
    (hperm : List.Perm files₁ files₂)
    (hnd : (files₁.map (fun f => f.name)).Nodup) :
    stripTimestamp (analyzerMain t₁ files₁) = stripTimestamp (analyzerMain t₂ files₂) := by
  have htot : ∀ a b : RawProcessedFile,
      nameLe a.name b.name = true ∨ nameLe b.name a.name = true := by
    intro a b
    unfold nameLe
    simp only [decide_eq_true_eq]
    exact le_total _ _
  have htrans : ∀ a b c : RawProcessedFile,
      nameLe a.name b.name = true → nameLe b.name c.name = true
        → nameLe a.name c.name = true := by
    intro a b c
    unfold nameLe
    simp only [decide_eq_true_eq]
    exact le_trans
  have hinj := List.inj_on_of_nodup_map hnd
  have hsort : sortStable (fun a b => nameLe a.name b.name) files₁
      = sortStable (fun a b => nameLe a.name b.name) files₂ := by
    refine eq_of_perm_of_pairwise _ _
      (((sortStable_perm _ files₁).trans hperm).trans (sortStable_perm _ files₂).symm)
      ?_
      (sortStable_pairwise _ htot (fun a b c => htrans a b c) files₁)
      (sortStable_pairwise _ htot (fun a b c => htrans a b c) files₂)
    intro a ha b hb hab hba
    have ha' := (sortStable_perm (fun a b => nameLe a.name b.name) files₁).mem_iff.mp ha
    have hb' := (sortStable_perm (fun a b => nameLe a.name b.name) files₁).mem_iff.mp hb
    refine hinj ha' hb' ?_
    have h1 : a.name ≤ b.name := by
      have := hab
      unfold nameLe at this
      simpa using this
    have h2 : b.name ≤ a.name := by
      have := hba
      unfold nameLe at this
      simpa using this
    exact le_antisymm h1 h2
  have hdocs : load_processed_docs files₁ = load_processed_docs files₂ := by
    unfold load_processed_docs
    rw [hsort]
  unfold analyzerMain
  rw [hdocs]
  by_cases h : (load_processed_docs files₂).isEmpty <;> simp only [h, if_pos, if_neg] <;> rfl

/-- C9 witness: two loadings of the same two files in different orders. -/
theorem c9_determinism_witness :
    stripTimestamp (analyzerMain "T1"
        [⟨"b.json", some (some "the cat")⟩, ⟨"a.json", none⟩])
      = stripTimestamp (analyzerMain "T2"
          [⟨"a.json", none⟩, ⟨"b.json", some (some "the cat")⟩]) :=
  c9_determinism "T1" "T2" _ _ (by decide) (by decide)

theorem dictInsert_append {α β : Type} [DecidableEq α] (k : α) (v : β)
    (m : List (α × β)) (hk : k ∉ m.map Prod.fst) :
    dictInsert k v m = m ++ [(k, v)] := by
  induction m with
  | nil => rfl
  | cons p rest ih =>
    obtain ⟨k', v'⟩ := p
    have hne : ¬(k' = k) := by
      intro h
      exact hk (by simp [h])
    have hk' : k ∉ rest.map Prod.fst := by
      intro h
      exact hk (by simp [h])
    unfold dictInsert
    rw [if_neg hne, ih hk']
    simp

theorem perDocTokens_aux :
    ∀ (docs : List ProcessedDocJson) (m : List (String × List String)),
      (docs.map (fun d => d.filename)).Nodup →
      (∀ d ∈ docs, d.filename ∉ m.map Prod.fst) →
      docs.foldl (fun m d => dictInsert d.filename (tokenize (getText d)) m) m
        = m ++ docs.map (fun d => (d.filename, tokenize (getText d))) := by
  intro docs
  induction docs with
  | nil => intro m _ _; simp
  | cons d ds ih =>
    intro m hnd hm
    have hnd' : (ds.map (fun d => d.filename)).Nodup :=
      (List.nodup_cons.mp hnd).2
    have hdns : d.filename ∉ ds.map (fun d => d.filename) :=
      (List.nodup_cons.mp hnd).1
    have hm' : ∀ e ∈ ds, e.filename ∉ (m ++ [(d.filename, tokenize (getText d))]).map Prod.fst := by
      intro e he
      simp only [List.map_append, List.mem_append]
      rintro (h | h)
      · exact hm e (List.mem_cons_of_mem d he) h
      · simp at h
        exact hdns (h ▸ List.mem_map_of_mem (fun d => d.filename) he)
    rw [List.foldl_cons, dictInsert_append _ _ _ (hm d (List.mem_cons_self d ds)),
      ih _ hnd' hm']
    simp

/-- With duplicate-free filenames, `per_doc_tokens` lists every document's
filename and tokens, in loading order. -/
theorem perDocTokens_eq_map (docs : List ProcessedDocJson)
    (hnd : (docs.map (fun d => d.filename)).Nodup) :
    perDocTokens docs = docs.map (fun d => (d.filename, tokenize (getText d))) := by
  have h := perDocTokens_aux docs [] hnd (by simp)
  simpa [perDocTokens] using h

theorem listPairs_map {α β : Type} (f : α → β) :
    ∀ l : List α, listPairs (l.map f) = (listPairs l).map (Prod.map f f) := by
  intro l
  induction l with
  | nil => rfl
  | cons x xs ih =>
    simp only [List.map_cons, listPairs, ih, List.map_append, List.map_map]
    congr 1

theorem listPairs_length {α : Type} : ∀ l : List α,
    (listPairs l).length = l.length.choose 2 := by
  intro l
  induction l with
  | nil => rfl
  | cons x xs ih =>
    simp only [listPairs, List.length_append, List.length_map, ih, List.length_cons]
    rw [Nat.choose_succ_succ, Nat.choose_one_right]

theorem listPairs_ne {α : Type} : ∀ l : List α, l.Nodup →
    ∀ p ∈ listPairs l, p.1 ≠ p.2 := by
  intro l
  induction l with
  | nil =>
    intro _ p hp
    simp [listPairs] at hp
  | cons x xs ih =>
    intro hnd p hp
    rcases List.mem_append.mp hp with h | h
    · obtain ⟨y, hy, rfl⟩ := List.mem_map.mp h
      intro hxy
      dsimp at hxy
      exact (List.nodup_cons.mp hnd).1 (hxy ▸ hy)
    · exact ih (List.nodup_cons.mp hnd).2 p h

/-- With duplicate-free filenames, the similarity rows enumerate exactly the
`C(N,2)` combination pairs of filenames, in loading order. -/
theorem cgs_sim_pairs (now : String) (docs : List ProcessedDocJson)
    (hnd : (docs.map (fun d => d.filename)).Nodup) :
    ((compute_global_statistics now docs).document_similarity.map
        (fun r => (r.doc1, r.doc2)))
      = listPairs (docs.map (fun d => d.filename)) := by
  have hsim : (compute_global_statistics now docs).document_similarity
      = (listPairs (perDocTokens docs)).map (fun pq =>
          ({ doc1 := pq.1.1, doc2 := pq.2.1,
             similarity := jaccard_similarity pq.1.2 pq.2.2 } : SimRow)) := rfl
  rw [hsim, perDocTokens_eq_map docs hnd, listPairs_map, List.map_map,
    show ((fun d : ProcessedDocJson => d.filename)
        = Prod.fst ∘ (fun d : ProcessedDocJson => (d.filename, tokenize (getText d)))) from rfl,
    ← List.map_map, listPairs_map, List.map_map]
  simp only [List.map_map]
  refine List.map_congr_left ?_
  intro p _
  cases p
  rfl

/-- C7: the similarity list has one row per unordered pair of distinct
documents (all `C(N,2)` of them, no self-pairs), ordered by the first
document's loading position, then the second's. -/
theorem c7_pair_enumeration (now : String) (docs : List ProcessedDocJson)
    (hnd : (docs.map (fun d => d.filename)).Nodup) :
    ((compute_global_statistics now docs).document_similarity.map
        (fun r => (r.doc1, r.doc2)))
      = listPairs (docs.map (fun d => d.filename))
    ∧ (compute_global_statistics now docs).document_similarity.length
        = docs.length.choose 2
    ∧ ∀ r ∈ (compute_global_statistics now docs).document_similarity,
        r.doc1 ≠ r.doc2 := by
  refine ⟨cgs_sim_pairs now docs hnd, ?_, ?_⟩
  · have h := congrArg List.length (cgs_sim_pairs now docs hnd)
    rw [List.length_map, listPairs_length, List.length_map] at h
    exact h
  · intro r hr
    have hmem : (r.doc1, r.doc2) ∈ listPairs (docs.map (fun d => d.filename)) := by
      rw [← cgs_sim_pairs now docs hnd]
      exact List.mem_map_of_mem _ hr
    exact listPairs_ne _ hnd _ hmem

/-- C7 witness: two documents with distinct filenames. -/
theorem c7_pair_enumeration_witness :
    ((compute_global_statistics "T"
        [⟨"a.json", some "x y"⟩, ⟨"b.json", some "x z"⟩]).document_similarity.map
        (fun r => (r.doc1, r.doc2)))
      = listPairs (([⟨"a.json", some "x y"⟩, ⟨"b.json", some "x z"⟩] :
          List ProcessedDocJson).map (fun d => d.filename))
    ∧ (compute_global_statistics "T"
        [⟨"a.json", some "x y"⟩, ⟨"b.json", some "x z"⟩]).document_similarity.length
        = ([⟨"a.json", some "x y"⟩, ⟨"b.json", some "x z"⟩] :
            List ProcessedDocJson).length.choose 2
    ∧ ∀ r ∈ (compute_global_statistics "T"
        [⟨"a.json", some "x y"⟩, ⟨"b.json", some "x z"⟩]).document_similarity,
        r.doc1 ≠ r.doc2 :=
  c7_pair_enumeration "T" _ (by decide)

/-- The analyzer reads a document only through its filename and
`d.get("text", "")`: `allTokens` is determined by those projections. -/
theorem allTokens_congr :
    ∀ (l₁ l₂ : List ProcessedDocJson),
      l₁.map (fun d => (d.filename, getText d)) = l₂.map (fun d => (d.filename, getText d)) →
      allTokens l₁ = allTokens l₂ := by
  intro l₁
  induction l₁ with
  | nil =>
    intro l₂ h
    cases l₂ with
    | nil => rfl
    | cons b bs => simp at h
  | cons a as ih =>
    intro l₂ h
    cases l₂ with
    | nil => simp at h
    | cons b bs =>
      simp only [List.map_cons, List.cons.injEq] at h
      have htext : getText a = getText b := congrArg Prod.snd h.1
      show tokenize (getText a) ++ allTokens as = tokenize (getText b) ++ allTokens bs
      rw [htext, ih bs h.2]

theorem docTotals_congr (l₁ l₂ : List ProcessedDocJson)
    (h : l₁.map (fun d => (d.filename, getText d)) = l₂.map (fun d => (d.filename, getText d))) :
    docTotals l₁ = docTotals l₂ := by
  unfold docTotals
  suffices hs : ∀ (as bs : List ProcessedDocJson) (acc : ℕ × ℕ × ℕ),
      as.map (fun d => (d.filename, getText d)) = bs.map (fun d => (d.filename, getText d)) →
      as.foldl (fun acc d =>
        let toks := tokenize (getText d)
        (acc.1 + toks.length,
         acc.2.1 + (toks.map String.length).sum,
         acc.2.2 + (split_sentences (getText d)).length)) acc
      = bs.foldl (fun acc d =>
        let toks := tokenize (getText d)
        (acc.1 + toks.length,
         acc.2.1 + (toks.map String.length).sum,
         acc.2.2 + (split_sentences (getText d)).length)) acc from
    hs l₁ l₂ (0, 0, 0) h
  intro as
  induction as with
  | nil =>
    intro bs acc h
    cases bs with
    | nil => rfl
    | cons b bs' => simp at h
  | cons a as' ih =>
    intro bs acc h
    cases bs with
    | nil => simp at h
    | cons b bs' =>
      simp only [List.map_cons, List.cons.injEq] at h
      have htext : getText a = getText b := congrArg Prod.snd h.1
      simp only [List.foldl_cons]
      rw [htext, ih bs' _ h.2]

theorem perDocTokens_congr (l₁ l₂ : List ProcessedDocJson)
    (h : l₁.map (fun d => (d.filename, getText d)) = l₂.map (fun d => (d.filename, getText d))) :
    perDocTokens l₁ = perDocTokens l₂ := by
  unfold perDocTokens
  suffices hs : ∀ (as bs : List ProcessedDocJson) (m : List (String × List String)),
      as.map (fun d => (d.filename, getText d)) = bs.map (fun d => (d.filename, getText d)) →
      as.foldl (fun m d => dictInsert d.filename (tokenize (getText d)) m) m
      = bs.foldl (fun m d => dictInsert d.filename (tokenize (getText d)) m) m from
    hs l₁ l₂ [] h
  intro as
  induction as with
  | nil =>
    intro bs m h
    cases bs with
    | nil => rfl
    | cons b bs' => simp at h
  | cons a as' ih =>
    intro bs m h
    cases bs with
    | nil => simp at h
    | cons b bs' =>
      simp only [List.map_cons, List.cons.injEq] at h
      have htext : getText a = getText b := congrArg Prod.snd h.1
      have hname : a.filename = b.filename := congrArg Prod.fst h.1
      simp only [List.foldl_cons]
      rw [htext, hname, ih bs' _ h.2]

/-- The whole report is determined by each document's filename and
`d.get("text", "")` projection (plus the document count). -/
theorem cgs_congr (now : String) (l₁ l₂ : List ProcessedDocJson)
    (h : l₁.map (fun d => (d.filename, getText d)) = l₂.map (fun d => (d.filename, getText d))) :
    compute_global_statistics now l₁ = compute_global_statistics now l₂ := by
  have hlen : l₁.length = l₂.length := by
    have := congrArg List.length h
    simpa using this
  unfold compute_global_statistics
  rw [allTokens_congr l₁ l₂ h, docTotals_congr l₁ l₂ h, perDocTokens_congr l₁ l₂ h, hlen]

/-- C10: a loaded document without a `"text"` field is treated exactly as if
its text were the empty string — zero tokens and sentences — while still
being counted in `documents_processed` and still appearing in every
similarity pair that involves it. -/
theorem c10_missing_text (now : String) (docs : List ProcessedDocJson)
    (d : ProcessedDocJson) (hd : d ∈ docs) (ht : d.text = none)
    (hnd : (docs.map (fun d => d.filename)).Nodup) :
    tokenize (getText d) = []
    ∧ split_sentences (getText d) = []
    ∧ compute_global_statistics now docs
        = compute_global_statistics now
            (docs.map (fun e => if e = d then ⟨e.filename, some ""⟩ else e))
    ∧ (compute_global_statistics now docs).documents_processed = docs.length
    ∧ ((compute_global_statistics now docs).document_similarity.map
        (fun r => (r.doc1, r.doc2)))
      = listPairs (docs.map (fun e => e.filename)) := by
  have htext : getText d = "" := by
    unfold getText
    rw [ht]
    rfl
  refine ⟨by rw [htext]; rfl, by rw [htext]; decide, ?_, rfl, cgs_sim_pairs now docs hnd⟩
  apply cgs_congr
  rw [List.map_map]
  refine List.map_congr_left ?_
  intro e _
  by_cases he : e = d
  · subst he
    simp only [Function.comp, if_pos rfl]
    rw [htext]
    rfl
  · simp only [Function.comp, if_neg he]

/-- C10 witness: a two-document corpus where one record lacks `"text"`. -/
theorem c10_missing_text_witness :
    tokenize (getText ⟨"b.json", none⟩) = []
    ∧ split_sentences (getText ⟨"b.json", none⟩) = []
    ∧ compute_global_statistics "T" [⟨"a.json", some "hello"⟩, ⟨"b.json", none⟩]
        = compute_global_statistics "T"
            (([⟨"a.json", some "hello"⟩, ⟨"b.json", none⟩] :
              List ProcessedDocJson).map
              (fun e => if e = ⟨"b.json", none⟩ then ⟨e.filename, some ""⟩ else e))
    ∧ (compute_global_statistics "T"
        [⟨"a.json", some "hello"⟩, ⟨"b.json", none⟩]).documents_processed
        = ([⟨"a.json", some "hello"⟩, ⟨"b.json", none⟩] : List ProcessedDocJson).length
    ∧ ((compute_global_statistics "T"
        [⟨"a.json", some "hello"⟩, ⟨"b.json", none⟩]).document_similarity.map
        (fun r => (r.doc1, r.doc2)))
      = listPairs (([⟨"a.json", some "hello"⟩, ⟨"b.json", none⟩] :
          List ProcessedDocJson).map (fun e => e.filename)) :=
  c10_missing_text "T" _ _ (by decide) rfl (by decide)

/-- The loop accumulators equal the corresponding corpus-wide sums. -/
theorem docTotals_eq (docs : List ProcessedDocJson) :
    docTotals docs
      = ((allTokens docs).length,
         ((allTokens docs).map String.length).sum,
         (docs.map (fun d => (split_sentences (getText d)).length)).sum) := by
  unfold docTotals allTokens
  suffices hs : ∀ (ds : List ProcessedDocJson) (acc : ℕ × ℕ × ℕ),
      ds.foldl (fun acc d =>
        let toks := tokenize (getText d)
        (acc.1 + toks.length,
         acc.2.1 + (toks.map String.length).sum,
         acc.2.2 + (split_sentences (getText d)).length)) acc
      = (acc.1 + (ds.flatMap (fun d => tokenize (getText d))).length,
         acc.2.1 + ((ds.flatMap (fun d => tokenize (getText d))).map String.length).sum,
         acc.2.2 + (ds.map (fun d => (split_sentences (getText d)).length)).sum) by
    rw [hs docs (0, 0, 0)]
    simp
  intro ds
  induction ds with
  | nil => intro acc; simp
  | cons d ds ih =>
    intro acc
    rw [List.foldl_cons, ih]
    refine Prod.ext ?_ (Prod.ext ?_ ?_) <;>
      simp [List.flatMap_cons, Nat.add_assoc]

/-- C8: the readability summary equals the spec's formulas — average
sentence length `W/S` (0 if `S = 0`), average word length `L/W` (0 if
`W = 0`), and `0.4 * (avg_sentence_length + 100 * CX / W)` with the second
term 0 when `W = 0`, where a token is complex iff its length is at least 7;
each value rounded to three decimals. -/
theorem c8_readability (now : String) (docs : List ProcessedDocJson) :
    ((compute_global_statistics now docs).readability.avg_sentence_length
      = round3 (if (docs.map (fun d => (split_sentences (getText d)).length)).sum = 0
          then 0
          else ((allTokens docs).length : ℚ)
            / ((docs.map (fun d => (split_sentences (getText d)).length)).sum : ℚ)))
    ∧ ((compute_global_statistics now docs).readability.avg_word_length
      = round3 (if (allTokens docs).length = 0 then 0
          else (((allTokens docs).map String.length).sum : ℚ)
            / ((allTokens docs).length : ℚ)))
    ∧ ((compute_global_statistics now docs).readability.complexity_score
      = round3 (0.4 *
          ((if (docs.map (fun d => (split_sentences (getText d)).length)).sum = 0
              then 0
              else ((allTokens docs).length : ℚ)
                / ((docs.map (fun d => (split_sentences (getText d)).length)).sum : ℚ))
           + (if (allTokens docs).length = 0 then 0
              else (100 : ℚ)
                * (((allTokens docs).filter (fun w => 7 ≤ w.length)).length : ℚ)
                / ((allTokens docs).length : ℚ))))) := by
  have h := docTotals_eq docs
  refine ⟨?_, ?_, ?_⟩
  · show round3 (if (docTotals docs).2.2 = 0 then 0
      else ((docTotals docs).1 : ℚ) / ((docTotals docs).2.2 : ℚ)) = _
    rw [h]
  · show round3 (if (docTotals docs).1 = 0 then 0
      else ((docTotals docs).2.1 : ℚ) / ((docTotals docs).1 : ℚ)) = _
    rw [h]
  · show round3 (0.4 *
        ((if (docTotals docs).2.2 = 0 then 0
            else ((docTotals docs).1 : ℚ) / ((docTotals docs).2.2 : ℚ))
         + (if (docTotals docs).1 = 0 then 0
            else (100 : ℚ)
              * (((allTokens docs).filter (fun w => 7 ≤ w.length)).length : ℚ)
              / ((docTotals docs).1 : ℚ)))) = _
    rw [h]

theorem mem_dedupFirstAux {α : Type} [DecidableEq α] {a : α} :
    ∀ (l seen : List α), a ∈ dedupFirstAux seen l ↔ a ∈ l ∧ a ∉ seen := by
  intro l
  induction l with
  | nil => intro seen; simp [dedupFirstAux]
  | cons x xs ih =>
    intro seen
    unfold dedupFirstAux
    by_cases hx : x ∈ seen
    · rw [if_pos hx, ih seen]
      constructor
      · rintro ⟨h1, h2⟩
        exact ⟨List.mem_cons_of_mem x h1, h2⟩
      · rintro ⟨h1, h2⟩
        rcases List.mem_cons.mp h1 with rfl | h1
        · exact absurd hx h2
        · exact ⟨h1, h2⟩
    · rw [if_neg hx]
      rw [List.mem_cons, ih (x :: seen)]
      constructor
      · rintro (rfl | ⟨h1, h2⟩)
        · exact ⟨List.mem_cons_self _ _, hx⟩
        · exact ⟨List.mem_cons_of_mem x h1, fun hs => h2 (List.mem_cons_of_mem x hs)⟩
      · rintro ⟨h1, h2⟩
        rcases List.mem_cons.mp h1 with rfl | h1
        · exact Or.inl rfl
        · by_cases hax : a = x
          · exact Or.inl hax
          · refine Or.inr ⟨h1, ?_⟩
            intro hs
            rcases List.mem_cons.mp hs with h | h
            · exact hax h
            · exact h2 h

theorem dedupFirstAux_nodup {α : Type} [DecidableEq α] :
    ∀ (l seen : List α), (dedupFirstAux seen l).Nodup := by
  intro l
  induction l with
  | nil => intro seen; exact List.nodup_nil
  | cons x xs ih =>
    intro seen
    unfold dedupFirstAux
    by_cases hx : x ∈ seen
    · rw [if_pos hx]
      exact ih seen
    · rw [if_neg hx]
      refine List.nodup_cons.mpr ⟨?_, ih (x :: seen)⟩
      intro hmem
      exact ((mem_dedupFirstAux xs (x :: seen)).mp hmem).2 (List.mem_cons_self x seen)

theorem dedupFirst_nodup {α : Type} [DecidableEq α] (l : List α) :
    (dedupFirst l).Nodup := dedupFirstAux_nodup l []

/-- Any duplicate-free list is ordered by its own positions. -/
theorem pairwise_indexOf_of_nodup {α : Type} [DecidableEq α] :
    ∀ l : List α, l.Nodup → l.Pairwise (fun a b => l.indexOf a < l.indexOf b) := by
  intro l
  induction l with
  | nil => intro _; exact List.Pairwise.nil
  | cons x xs ih =>
    intro h
    rcases List.nodup_cons.mp h with ⟨hx, hxs⟩
    refine List.pairwise_cons.mpr ⟨?_, ?_⟩
    · intro b hb
      have hbx : b ≠ x := fun he => hx (he ▸ hb)
      rw [List.indexOf_cons_self, List.indexOf_cons_ne _ (Ne.symm hbx)]
      exact Nat.succ_pos _
    · refine List.Pairwise.imp_of_mem ?_ (ih hxs)
      intro a b ha hb hab
      have hax : a ≠ x := fun he => hx (he ▸ ha)
      have hbx : b ≠ x := fun he => hx (he ▸ hb)
      rw [List.indexOf_cons_ne _ (Ne.symm hax), List.indexOf_cons_ne _ (Ne.symm hbx)]
      exact Nat.succ_lt_succ hab

theorem mem_counterItems {α : Type} [DecidableEq α] {wc : α × ℕ} {l : List α}
    (h : wc ∈ counterItems l) : wc.1 ∈ dedupFirst l ∧ wc.2 = l.count wc.1 := by
  unfold counterItems at h
  obtain ⟨w, hw, rfl⟩ := List.mem_map.mp h
  exact ⟨hw, rfl⟩

/-- The order in which `most_common` lists entries: strictly greater count
first, ties by the auxiliary position `f` (first occurrence). -/
def topOrd {α : Type} (f : α × ℕ → ℕ) (a b : α × ℕ) : Prop :=
  b.2 < a.2 ∨ (a.2 = b.2 ∧ f a < f b)

theorem insertSorted_countGe_pairwise {α : Type} (f : α × ℕ → ℕ) (x : α × ℕ) :
    ∀ l : List (α × ℕ), l.Pairwise (topOrd f)
      → (∀ y ∈ l, x.2 = y.2 → f x < f y)
      → (insertSorted countGe x l).Pairwise (topOrd f) := by
  intro l
  induction l with
  | nil => intro _ _; simp [insertSorted]
  | cons y ys ih =>
    intro hl hx
    rcases List.pairwise_cons.mp hl with ⟨hy, hys⟩
    unfold insertSorted
    by_cases hle : countGe x y = true
    · rw [if_pos hle]
      have hyx : y.2 ≤ x.2 := by simpa [countGe] using hle
      refine List.pairwise_cons.mpr ⟨?_, hl⟩
      intro b hb
      rcases List.mem_cons.mp hb with rfl | hb
      · rcases eq_or_lt_of_le hyx with he | hlt
        · exact Or.inr ⟨he.symm, hx b (List.mem_cons_self b ys) he.symm⟩
        · exact Or.inl hlt
      · rcases hy b hb with hlt | ⟨he, _⟩
        · exact Or.inl (lt_of_lt_of_le hlt hyx)
        · rcases eq_or_lt_of_le hyx with hexy | hltxy
          · have hxb : x.2 = b.2 := by omega
            exact Or.inr ⟨hxb, hx b (List.mem_cons_of_mem y hb) hxb⟩
          · exact Or.inl (he ▸ hltxy)
    · rw [if_neg hle]
      have hxy : x.2 < y.2 := by
        have : ¬ (y.2 ≤ x.2) := by simpa [countGe] using hle
        omega
      refine List.pairwise_cons.mpr
        ⟨?_, ih hys (fun z hz => hx z (List.mem_cons_of_mem y hz))⟩
      intro b hb
      rcases mem_insertSorted.mp hb with rfl | hb
      · exact Or.inl hxy
      · exact hy b hb

theorem sortStable_countGe_pairwise {α : Type} (f : α × ℕ → ℕ) :
    ∀ l : List (α × ℕ), l.Pairwise (fun a b => a.2 = b.2 → f a < f b)
      → (sortStable countGe l).Pairwise (topOrd f) := by
  intro l
  induction l with
  | nil => intro _; exact List.Pairwise.nil
  | cons x xs ih =>
    intro hl
    rcases List.pairwise_cons.mp hl with ⟨hx, hxs⟩
    unfold sortStable
    refine insertSorted_countGe_pairwise f x _ (ih hxs) ?_
    intro y hy he
    exact hx y ((sortStable_perm countGe xs).mem_iff.mp hy) he

/-- The counter's items are sorted with respect to first-occurrence order. -/
theorem counterItems_pairwise {α : Type} [DecidableEq α] (l : List α) :
    (counterItems l).Pairwise
      (fun a b => (dedupFirst l).indexOf a.1 < (dedupFirst l).indexOf b.1) := by
  unfold counterItems
  refine List.pairwise_map.mpr ?_
  exact pairwise_indexOf_of_nodup (dedupFirst l) (dedupFirst_nodup l)

/-- Lexicographic (code-point) comparison of character lists, the order
Python uses to compare strings. -/
def lexLt : List Char → List Char → Bool
  | [], [] => false
  | [], _ :: _ => true
  | _ :: _, [] => false
  | x :: xs, y :: ys =>
    if x.val < y.val then true
    else if y.val < x.val then false
    else lexLt xs ys

/-- The tie order the spec sentence asks for: descending count, ties by
ascending lexical order of the token (for comparison with the code's
insertion-order tie-breaking). -/
def specLexLe (a b : String × ℕ) : Bool :=
  decide (b.2 < a.2) || (decide (a.2 = b.2) && lexLt a.1.data b.1.data)

/-- Top-100 selection as the spec sentence literally describes it. -/
def specTop100 (tokens : List String) : List (String × ℕ) :=
  (sortStable specLexLe (counterItems tokens)).take 100

/-- C1 amended: the top-100 entries are ordered by strictly descending count
with ties in order of the token's first occurrence in the corpus token
stream; each entry carries the token's true corpus count and frequency
`count / total_words` (0 when `total_words` is 0); exactly
`min 100 #distinct` entries are listed, and every distinct token left out
has a count no larger than any listed entry's. -/
theorem c1_top100 (now : String) (docs : List ProcessedDocJson) :
    ((compute_global_statistics now docs).top_100_words.Pairwise (fun a b =>
        b.count < a.count
        ∨ (a.count = b.count
           ∧ (dedupFirst (allTokens docs)).indexOf a.word
               < (dedupFirst (allTokens docs)).indexOf b.word)))
    ∧ (∀ e ∈ (compute_global_statistics now docs).top_100_words,
        e.count = (allTokens docs).count e.word
        ∧ e.frequency = (if (compute_global_statistics now docs).total_words = 0 then 0
            else (e.count : ℚ) / ((compute_global_statistics now docs).total_words : ℚ)))
    ∧ (compute_global_statistics now docs).top_100_words.length
        = min 100 (dedupFirst (allTokens docs)).length
    ∧ (∀ w ∈ dedupFirst (allTokens docs),
        w ∉ (compute_global_statistics now docs).top_100_words.map (fun e => e.word) →
        ∀ e ∈ (compute_global_statistics now docs).top_100_words,
          (allTokens docs).count w ≤ e.count) := by
  have hrepr : (compute_global_statistics now docs).top_100_words
      = (most_common 100 (counterItems (allTokens docs))).map
          (fun wc => TopWordEntry.mk wc.1 wc.2
            (if (docTotals docs).1 = 0 then 0
             else (wc.2 : ℚ) / ((docTotals docs).1 : ℚ))) := rfl
  have hS : (sortStable countGe (counterItems (allTokens docs))).Pairwise
      (topOrd (fun wc => (dedupFirst (allTokens docs)).indexOf wc.1)) := by
    refine sortStable_countGe_pairwise _ _ ?_
    refine (counterItems_pairwise (allTokens docs)).imp ?_
    intro a b h _
    exact h
  refine ⟨?_, ?_, ?_, ?_⟩
  · rw [hrepr]
    refine List.Pairwise.map _ ?_
      (hS.sublist (List.take_sublist 100 _))
    intro a b h
    exact h
  · intro e he
    rw [hrepr] at he
    obtain ⟨wc, hwc, rfl⟩ := List.mem_map.mp he
    have hwc' : wc ∈ counterItems (allTokens docs) :=
      (sortStable_perm countGe _).mem_iff.mp
        ((List.take_sublist 100 _).subset hwc)
    exact ⟨(mem_counterItems hwc').2, rfl⟩
  · rw [hrepr, List.length_map]
    show (List.take 100 (sortStable countGe (counterItems (allTokens docs)))).length = _
    rw [List.length_take, (sortStable_perm countGe _).length_eq]
    simp [counterItems]
  · intro w hw hnot e he
    have hwc : (w, (allTokens docs).count w) ∈ counterItems (allTokens docs) := by
      unfold counterItems
      exact List.mem_map_of_mem _ hw
    have hmemL : (w, (allTokens docs).count w)
        ∈ sortStable countGe (counterItems (allTokens docs)) :=
      (sortStable_perm countGe _).mem_iff.mpr hwc
    rw [← List.take_append_drop 100
      (sortStable countGe (counterItems (allTokens docs)))] at hmemL
    rcases List.mem_append.mp hmemL with hin | hin
    · exfalso
      apply hnot
      rw [hrepr, List.map_map]
      exact List.mem_map_of_mem _ hin
    · have hSapp := hS
      rw [← List.take_append_drop 100
        (sortStable countGe (counterItems (allTokens docs)))] at hSapp
      have hrel := (List.pairwise_append.mp hSapp).2.2
      rw [hrepr] at he
      obtain ⟨wc', hwc', rfl⟩ := List.mem_map.mp he
      have := hrel wc' hwc' (w, (allTokens docs).count w) hin
      rcases this with hlt | ⟨heq, _⟩
      · exact Nat.le_of_lt hlt
      · exact Nat.le_of_eq heq.symm

/-- C1 counterexample: with the single document text `"b a"` both tokens
have count 1, and the code lists `"b"` before `"a"` (first-occurrence
order), while the spec's lexical tie-breaking would list `"a"` first. -/
theorem c1_counterexample :
    ((compute_global_statistics "t" [⟨"d1.json", some "b a"⟩]).top_100_words.map
        (fun e => (e.word, e.count))) = [("b", 1), ("a", 1)]
    ∧ specTop100 (allTokens [⟨"d1.json", some "b a"⟩]) = [("a", 1), ("b", 1)]
    ∧ ¬ (compute_global_statistics "t" [⟨"d1.json", some "b a"⟩]).top_100_words.Pairwise
        (fun a b => b.count < a.count
          ∨ (a.count = b.count ∧ lexLt a.word.data b.word.data = true)) :=
  ⟨by decide, by decide, by decide⟩

/-- C1 witness: the count/frequency clause applied to the first entry of
the `"b a"` corpus's top-100 list. -/
theorem c1_top100_witness :
    ∃ e ∈ (compute_global_statistics "t" [⟨"d1.json", some "b a"⟩]).top_100_words,
      e.count = (allTokens [⟨"d1.json", some "b a"⟩]).count e.word
      ∧ e.frequency
          = (if (compute_global_statistics "t" [⟨"d1.json", some "b a"⟩]).total_words = 0
             then 0
             else (e.count : ℚ)
               / ((compute_global_statistics "t"
                    [⟨"d1.json", some "b a"⟩]).total_words : ℚ)) := by
  obtain ⟨x, xs, hx⟩ : ∃ x xs,
      (compute_global_statistics "t" [⟨"d1.json", some "b a"⟩]).top_100_words
        = x :: xs := ⟨_, _, rfl⟩
  refine ⟨x, ?_, (c1_top100 "t" [⟨"d1.json", some "b a"⟩]).2.1 x ?_⟩ <;>
    · rw [hx]
      exact List.mem_cons_self _ _

/-- No cut point inside a text fragment: scanning it never meets a
whitespace character immediately preceded by sentence punctuation (the
optional first argument is the character preceding the fragment). -/
def noCutPair : Option Char → List Char → Bool
  | _, [] => true
  | none, c :: cs => noCutPair (some c) cs
  | some a, c :: cs => !(isPunct a && isWS c) && noCutPair (some c) cs

/-- The fragment ends with `.`, `!` or `?`. -/
def endsPunct (s : List Char) : Bool := headPunct s.reverse

/-- A well-formed sentence for the generator: non-empty, not starting with
whitespace, ending with sentence punctuation, and containing no internal
punctuation-then-whitespace cut point. -/
def goodSentence : List Char → Bool
  | [] => false
  | c :: cs => !isWS c && endsPunct (c :: cs) && noCutPair none (c :: cs)

/-- Join sentences with single spaces. -/
def joinSp : List (List Char) → List Char
  | [] => []
  | [s] => s
  | s :: s' :: rest => s ++ ' ' :: joinSp (s' :: rest)

/-- Scanning a cut-free fragment just accumulates it. -/
theorem splitAtWS_no_cut : ∀ (s acc tail : List Char),
    noCutPair acc.head? s = true →
    splitAtWS (s ++ tail) acc = splitAtWS tail (s.reverse ++ acc) := by
  intro s
  induction s with
  | nil =>
    intro acc tail _
    simp
  | cons c cs ih =>
    intro acc tail h
    rw [List.cons_append, splitAtWS_cons]
    have hnc : noCutPair (some c) cs = true ∧ (isWS c && headPunct acc) = false := by
      cases acc with
      | nil =>
        refine ⟨by simpa [noCutPair] using h, ?_⟩
        simp [headPunct]
      | cons a as =>
        have h' : (!(isPunct a && isWS c) && noCutPair (some c) cs) = true := by
          simpa [noCutPair] using h
        rw [Bool.and_eq_true] at h'
        rcases h' with ⟨h1, h2⟩
        refine ⟨h2, ?_⟩
        have : (isPunct a && isWS c) = false := by
          cases hh : (isPunct a && isWS c)
          · rfl
          · rw [hh] at h1
            exact absurd h1 (by decide)
        rcases Bool.and_eq_false_iff.mp this with h3 | h3
        · simp [headPunct, h3]
        · simp [h3]
    rw [hnc.2]
    simp only [Bool.false_eq_true, if_false]
    rw [ih (c :: acc) tail (by simpa using hnc.1)]
    congr 1
    simp

/-- A non-empty sentence sequence keeps its head character at the front of
the joined text. -/
theorem joinSp_cons_head {s2 : List Char} (ss : List (List Char)) (c : Char)
    (cs : List Char) (h : s2 = c :: cs) :
    ∃ cs', joinSp (s2 :: ss) = c :: cs' := by
  cases ss with
  | nil => exact ⟨cs, by simp [joinSp, h]⟩
  | cons s3 ss' => exact ⟨cs ++ ' ' :: joinSp (s3 :: ss'), by simp [joinSp, h]⟩

/-- The split recovers exactly the sentences of a well-formed joined text. -/
theorem splitAtWS_joinSp : ∀ ss : List (List Char), ss ≠ [] →
    (∀ s ∈ ss, goodSentence s = true) →
    splitAtWS (joinSp ss) [] = ss := by
  intro ss
  induction ss with
  | nil => intro h _; exact absurd rfl h
  | cons s ss' ih =>
    intro _ hgood
    have hs := hgood s (List.mem_cons_self _ _)
    obtain ⟨c, cs, hcs⟩ : ∃ c cs, s = c :: cs := by
      cases hseq : s with
      | nil =>
        rw [hseq] at hs
        exact absurd hs (by decide)
      | cons c cs => exact ⟨c, cs, rfl⟩
    subst hcs
    have hs' : (!isWS c && endsPunct (c :: cs) && noCutPair none (c :: cs)) = true := by
      simpa [goodSentence] using hs
    rw [Bool.and_eq_true, Bool.and_eq_true] at hs'
    rcases hs' with ⟨⟨hws, hep⟩, hnc⟩
    cases ss' with
    | nil =>
      rw [show joinSp [c :: cs] = c :: cs from rfl, ← List.append_nil (c :: cs),
        splitAtWS_no_cut (c :: cs) [] [] (by simpa using hnc)]
      simp [splitAtWS_nil]
    | cons s2 ss'' =>
      have hs2 := hgood s2 (List.mem_cons_of_mem _ (List.mem_cons_self _ _))
      rw [show joinSp ((c :: cs) :: s2 :: ss'')
            = (c :: cs) ++ ' ' :: joinSp (s2 :: ss'') from rfl,
        splitAtWS_no_cut (c :: cs) [] _ (by simpa using hnc),
        splitAtWS_cons]
      have hcond : (isWS ' ' && headPunct ((c :: cs).reverse ++ [])) = true := by
        rw [List.append_nil]
        have hh : headPunct (c :: cs).reverse = true := hep
        rw [hh]
        rfl
      rw [hcond]
      simp only [if_true]
      have hdw : (joinSp (s2 :: ss'')).dropWhile isWS = joinSp (s2 :: ss'') := by
        obtain ⟨c2, cs2, hcs2⟩ : ∃ c2 cs2, s2 = c2 :: cs2 := by
          cases hseq : s2 with
          | nil =>
            rw [hseq] at hs2
            exact absurd hs2 (by decide)
          | cons c2 cs2 => exact ⟨c2, cs2, rfl⟩
        have hws2 : isWS c2 = false := by
          rw [hcs2] at hs2
          have hx : (!isWS c2 && endsPunct (c2 :: cs2) && noCutPair none (c2 :: cs2))
              = true := by simpa [goodSentence] using hs2
          rw [Bool.and_eq_true, Bool.and_eq_true] at hx
          simpa using hx.1.1
        obtain ⟨cs', hj⟩ := joinSp_cons_head ss'' c2 cs2 hcs2
        rw [hj]
        exact List.dropWhile_cons_of_neg (by simp [hws2])
      rw [hdw, ih (by simp) (fun t ht => hgood t (List.mem_cons_of_mem _ ht))]
      simp

/-- C6 amended: `sentence_count` is the number of non-empty segments obtained
by cutting the text at whitespace runs immediately preceded by `.`, `!` or
`?`, the punctuation staying attached to the preceding segment (only the
whitespace is consumed): on any space-joined sequence of well-formed
sentences it counts exactly the sentences. -/
theorem c6_sentence_count (origHtml : String) (ss : List (List Char))
    (hne : ss ≠ []) (hgood : ∀ s ∈ ss, goodSentence s = true) :
    (compute_statistics (String.mk (joinSp ss)) origHtml).sentence_count = ss.length := by
  show (processorSentences (String.mk (joinSp ss)).data).length = ss.length
  rw [show (String.mk (joinSp ss)).data = joinSp ss from rfl]
  unfold processorSentences
  rw [splitAtWS_joinSp ss hne hgood]
  rw [List.filter_eq_self.mpr ?_]
  intro s hsm
  have := hgood s hsm
  cases s with
  | nil => exact absurd this (by decide)
  | cons c cs => simp

/-- C6 witness: two concrete sentences. -/
theorem c6_sentence_count_witness :
    (compute_statistics
        (String.mk (joinSp ["Hi there.".data, "Bye!".data])) "").sentence_count
      = (["Hi there.".data, "Bye!".data] : List (List Char)).length :=
  c6_sentence_count "" ["Hi there.".data, "Bye!".data] (by decide) (by decide)

/-- C6 counterexample: on the text `". Hello"` the code's lookbehind split
keeps the lone punctuation as a (non-empty) segment and reports 2 sentences,
while the spec's split on `[.!?]+\s+` would consume the punctuation and
report 1 non-empty segment. -/
theorem c6_counterexample :
    (compute_statistics ". Hello" "").sentence_count = 2
    ∧ specSentenceCount ". Hello".data = 1
    ∧ (compute_statistics ". Hello" "").sentence_count
        ≠ specSentenceCount ". Hello".data :=
  ⟨by decide, by decide, by decide⟩

/-- A link (`<a href=…>`) or image (`<img src=…>`) tag for the well-formed
document generator: `kind = true` is an anchor, `false` an image; `quoted`
selects `href="u"` versus `href=u`. -/
structure TagItem where
  kind : Bool
  url : String
  quoted : Bool
deriving DecidableEq

/-- The tag without its closing `>` (`<a href=` or `<img src=`, then the
optionally quoted URL). -/
def itemInner (it : TagItem) : List Char :=
  (if it.kind then ['<', 'a', ' ', 'h', 'r', 'e', 'f', '=']
   else ['<', 'i', 'm', 'g', ' ', 's', 'r', 'c', '='])
    ++ (if it.quoted then '"' :: it.url.data ++ ['"'] else it.url.data)

def renderItem (it : TagItem) : List Char := itemInner it ++ ['>']

/-- A document consisting of anchor and image tags. -/
def renderDoc (items : List TagItem) : List Char := (items.map renderItem).flatten

/-- Side conditions under which a tag behaves plainly: a non-empty URL of
attribute-value characters that does not itself spell out an `href=`/`src=`
occurrence of the other kind nor a `<script`/`<style` opener. -/
def validItem (it : TagItem) : Bool :=
  !it.url.data.isEmpty && it.url.data.all isUrlChar
    && (if it.kind then !existsPrefixCI srcPat (itemInner it)
        else !existsPrefixCI hrefPat (itemInner it))
    && !existsPrefixCI scriptOpen (itemInner it)
    && !existsPrefixCI styleOpen (itemInner it)

theorem isPrefixCI_long : ∀ (pat xs ys : List Char), pat.length ≤ xs.length →
    isPrefixCI pat (xs ++ ys) = isPrefixCI pat xs := by
  intro pat
  induction pat with
  | nil => intro xs ys _; rfl
  | cons p ps ih =>
    intro xs ys h
    cases xs with
    | nil => simp at h
    | cons x xs' =>
      show ((x.toLower == p) && isPrefixCI ps (xs' ++ ys))
        = ((x.toLower == p) && isPrefixCI ps xs')
      rw [ih xs' ys (by simpa using h)]

theorem isPrefixCI_cross_false : ∀ (xs pat : List Char) (c : Char) (ys : List Char),
    (∀ p ∈ pat, (c.toLower == p) = false) → xs.length < pat.length →
    isPrefixCI pat (xs ++ c :: ys) = false := by
  intro xs
  induction xs with
  | nil =>
    intro pat c ys hc hlen
    cases pat with
    | nil => simp at hlen
    | cons p ps =>
      show ((c.toLower == p) && isPrefixCI ps ys) = false
      rw [hc p (List.mem_cons_self _ _)]
      rfl
  | cons x xs' ih =>
    intro pat c ys hc hlen
    cases pat with
    | nil => simp at hlen
    | cons p ps =>
      show ((x.toLower == p) && isPrefixCI ps (xs' ++ c :: ys)) = false
      cases hx : (x.toLower == p)
      · rfl
      · rw [ih ps c ys (fun r hr => hc r (List.mem_cons_of_mem p hr))
          (by simpa using hlen)]
        rfl

theorem existsPrefixCI_cons_false {pat : List Char} {c : Char} {cs : List Char}
    (h : existsPrefixCI pat (c :: cs) = false) :
    isPrefixCI pat (c :: cs) = false ∧ existsPrefixCI pat cs = false := by
  have h' : (isPrefixCI pat (c :: cs) || existsPrefixCI pat cs) = false := by
    simpa [existsPrefixCI] using h
  exact ⟨(Bool.or_eq_false_iff.mp h').1, (Bool.or_eq_false_iff.mp h').2⟩

/-- Scanning a pattern-free segment followed by a blocking character finds no
matches in the segment (the blocker stops any match crossing the boundary). -/
theorem findAll_skip : ∀ (xs pat : List Char) (c : Char) (ys : List Char),
    existsPrefixCI pat xs = false → (∀ p ∈ pat, (c.toLower == p) = false) →
    findAll pat (xs ++ c :: ys) = findAll pat (c :: ys) := by
  intro xs
  induction xs with
  | nil => intro pat c ys _ _; rfl
  | cons x xs' ih =>
    intro pat c ys hx hc
    rcases existsPrefixCI_cons_false hx with ⟨h1, h2⟩
    have hfalse : isPrefixCI pat ((x :: xs') ++ c :: ys) = false := by
      rcases Nat.lt_or_ge (x :: xs').length pat.length with hlt | hge
      · exact isPrefixCI_cross_false (x :: xs') pat c ys hc hlt
      · rw [isPrefixCI_long pat (x :: xs') (c :: ys) hge]
        exact h1
    rw [List.cons_append] at hfalse
    rw [List.cons_append, findAll_cons, hfalse]
    simp only [Bool.false_eq_true, if_false]
    exact ih pat c ys h2 hc

/-- A pattern-free text yields no matches at all. -/
theorem findAll_of_no_match : ∀ (l pat : List Char),
    existsPrefixCI pat l = false → findAll pat l = [] := by
  intro l
  induction l with
  | nil => intro pat _; rfl
  | cons c cs ih =>
    intro pat h
    rcases existsPrefixCI_cons_false h with ⟨h1, h2⟩
    rw [findAll_cons, h1]
    simp only [Bool.false_eq_true, if_false]
    exact ih pat h2

theorem findAll_step_no (pat : List Char) (c : Char) (cs : List Char)
    (h : isPrefixCI pat (c :: cs) = false) :
    findAll pat (c :: cs) = findAll pat cs := by
  rw [findAll_cons, h]
  simp

theorem takeWhile_append_all {p : Char → Bool} :
    ∀ (xs : List Char) (y : Char) (ys : List Char),
      (∀ x ∈ xs, p x = true) → p y = false →
      (xs ++ y :: ys).takeWhile p = xs ∧ (xs ++ y :: ys).dropWhile p = y :: ys := by
  intro xs
  induction xs with
  | nil =>
    intro y ys _ hy
    constructor
    · simp [List.takeWhile_cons, hy]
    · simp [List.dropWhile_cons, hy]
  | cons x xs' ih =>
    intro y ys hall hy
    have hx : p x = true := hall x (List.mem_cons_self _ _)
    obtain ⟨ht, hd⟩ := ih y ys (fun z hz => hall z (List.mem_cons_of_mem x hz)) hy
    constructor
    · rw [List.cons_append, List.takeWhile_cons_of_pos hx, ht]
    · rw [List.cons_append, List.dropWhile_cons_of_pos hx, hd]

theorem removeElemsFuel_noop (op cp : List Char) : ∀ (n : ℕ) (l : List Char),
    existsPrefixCI op l = false → removeElemsFuel op cp n l = l := by
  intro n
  induction n with
  | zero => intro l _; rfl
  | succ n ih =>
    intro l h
    cases l with
    | nil => rfl
    | cons c cs =>
      rcases existsPrefixCI_cons_false h with ⟨h1, h2⟩
      have htry : tryElem op cp (c :: cs) = none := by
        unfold tryElem
        rw [h1]
        simp
      show (match tryElem op cp (c :: cs) with
        | some rest => removeElemsFuel op cp n rest
        | none => c :: removeElemsFuel op cp n cs) = c :: cs
      rw [htry, ih cs h2]

theorem existsPrefixCI_append_false : ∀ (xs pat : List Char) (c : Char) (ys : List Char),
    existsPrefixCI pat xs = false → (∀ p ∈ pat, (c.toLower == p) = false) →
    existsPrefixCI pat (c :: ys) = false →
    existsPrefixCI pat (xs ++ c :: ys) = false := by
  intro xs
  induction xs with
  | nil => intro pat c ys _ _ hy; exact hy
  | cons x xs' ih =>
    intro pat c ys hx hc hy
    rcases existsPrefixCI_cons_false hx with ⟨h1, h2⟩
    have hfalse : isPrefixCI pat ((x :: xs') ++ c :: ys) = false := by
      rcases Nat.lt_or_ge (x :: xs').length pat.length with hlt | hge
      · exact isPrefixCI_cross_false (x :: xs') pat c ys hc hlt
      · rw [isPrefixCI_long pat (x :: xs') (c :: ys) hge]
        exact h1
    show (isPrefixCI pat ((x :: xs') ++ c :: ys)
        || existsPrefixCI pat (xs' ++ c :: ys)) = false
    rw [hfalse, ih pat c ys h2 hc hy]
    rfl

theorem isPrefixCI_self : ∀ (pat z : List Char),
    (∀ c ∈ pat, (c.toLower == c) = true) → isPrefixCI pat (pat ++ z) = true := by
  intro pat
  induction pat with
  | nil => intro z _; rfl
  | cons p ps ih =>
    intro z hlow
    show ((p.toLower == p) && isPrefixCI ps (ps ++ z)) = true
    rw [hlow p (List.mem_cons_self _ _),
      ih z (fun c hc => hlow c (List.mem_cons_of_mem p hc))]
    rfl

theorem isUrlChar_not_quote {c : Char} (h : isUrlChar c = true) :
    (c == '\'' || c == '"') = false := by
  have h' : (c == '\'' || c == '"' || c == ' ' || c == '>') = false := by
    simpa [isUrlChar] using h
  rcases Bool.or_eq_false_iff.mp (Bool.or_eq_false_iff.mp
    (Bool.or_eq_false_iff.mp h').1).1 with ⟨h1, h2⟩
  rw [h1, h2]
  rfl

/-- Expanding one successful scanner match. -/
theorem findAll_match (pat : List Char) (c : Char) (cs : List Char)
    (hpre : isPrefixCI pat (c :: cs) = true)
    (hcap : ((stripQuote ((c :: cs).drop pat.length)).takeWhile isUrlChar).isEmpty
        = false) :
    findAll pat (c :: cs)
      = (stripQuote ((c :: cs).drop pat.length)).takeWhile isUrlChar
        :: findAll pat ((stripQuote ((c :: cs).drop pat.length)).dropWhile isUrlChar) := by
  rw [findAll_cons, hpre]
  rw [if_pos rfl]
  dsimp only
  rw [hcap]
  simp

/-- At an exact pattern match, the scanner captures the whole URL (with or
without quotes) and resumes after it. -/
theorem findAll_capture (pat : List Char) (p : Char) (ps : List Char)
    (hpat : pat = p :: ps)
    (hlow : ∀ c ∈ pat, (c.toLower == c) = true)
    (hq : (('"').toLower == p) = false) (hg : (('>').toLower == p) = false)
    (u : String) (q : Bool) (rest : List Char)
    (hne : u.data.isEmpty = false) (hchars : u.data.all isUrlChar = true) :
    findAll pat (pat ++ (if q then '"' :: u.data ++ '"' :: '>' :: rest
                         else u.data ++ '>' :: rest))
      = u.data :: findAll pat rest := by
  subst hpat
  obtain ⟨c₀, u', hu⟩ : ∃ c₀ u', u.data = c₀ :: u' := by
    cases hud : u.data with
    | nil => rw [hud] at hne; exact absurd hne (by decide)
    | cons c₀ u' => exact ⟨c₀, u', rfl⟩
  have hallu : ∀ x ∈ u.data, isUrlChar x = true := List.all_eq_true.mp hchars
  have hstep_quote : ∀ z : List Char, findAll (p :: ps) ('"' :: z) = findAll (p :: ps) z := by
    intro z
    refine findAll_step_no (p :: ps) '"' z ?_
    show ((('"').toLower == p) && isPrefixCI ps z) = false
    rw [hq]
    rfl
  have hstep_gt : ∀ z : List Char, findAll (p :: ps) ('>' :: z) = findAll (p :: ps) z := by
    intro z
    refine findAll_step_no (p :: ps) '>' z ?_
    show ((('>').toLower == p) && isPrefixCI ps z) = false
    rw [hg]
    rfl
  cases q
  · -- unquoted tag value
    simp only [Bool.false_eq_true, if_false]
    have hdrop : ((p :: ps) ++ (u.data ++ '>' :: rest)).drop (p :: ps).length
        = u.data ++ '>' :: rest := List.drop_left _ _
    have hq0 : (c₀ == '\'' || c₀ == '"') = false :=
      isUrlChar_not_quote (hallu c₀ (hu ▸ List.mem_cons_self _ _))
    have e1 : stripQuote (((p :: ps) ++ (u.data ++ '>' :: rest)).drop (p :: ps).length)
        = u.data ++ '>' :: rest := by
      rw [hdrop, hu]
      show stripQuote (c₀ :: (u' ++ '>' :: rest)) = c₀ :: (u' ++ '>' :: rest)
      simp [stripQuote, hq0]
    obtain ⟨e2, e3⟩ := takeWhile_append_all u.data '>' rest hallu (by decide)
    have hpre : isPrefixCI (p :: ps) ((p :: ps) ++ (u.data ++ '>' :: rest)) = true :=
      isPrefixCI_self (p :: ps) _ hlow
    rw [show (p :: ps) ++ (u.data ++ '>' :: rest)
        = p :: (ps ++ (u.data ++ '>' :: rest)) from rfl] at hpre e1 ⊢
    rw [findAll_match (p :: ps) p _ hpre (by rw [e1, e2, hu]; rfl)]
    rw [e1, e2, e3, hstep_gt]
  · -- quoted tag value
    rw [if_pos rfl]
    have hdrop : ((p :: ps) ++ ('"' :: u.data ++ '"' :: '>' :: rest)).drop (p :: ps).length
        = '"' :: u.data ++ '"' :: '>' :: rest := List.drop_left _ _
    have e1 : stripQuote ((((p :: ps) ++ ('"' :: u.data ++ '"' :: '>' :: rest))).drop
          (p :: ps).length)
        = u.data ++ '"' :: '>' :: rest := by
      rw [hdrop]
      rfl
    obtain ⟨e2, e3⟩ := takeWhile_append_all u.data '"' ('>' :: rest) hallu (by decide)
    have hpre : isPrefixCI (p :: ps) ((p :: ps) ++ ('"' :: u.data ++ '"' :: '>' :: rest))
        = true := isPrefixCI_self (p :: ps) _ hlow
    rw [show (p :: ps) ++ ('"' :: u.data ++ '"' :: '>' :: rest)
        = p :: (ps ++ ('"' :: u.data ++ '"' :: '>' :: rest)) from rfl] at hpre e1 ⊢
    rw [findAll_match (p :: ps) p _ hpre (by rw [e1, e2, hu]; rfl)]
    rw [e1, e2, e3, hstep_quote, hstep_gt]

/-- Unpacking the side conditions of a valid tag. -/
theorem validItem_spec {it : TagItem} (h : validItem it = true) :
    it.url.data.isEmpty = false ∧ it.url.data.all isUrlChar = true
      ∧ (it.kind = true → existsPrefixCI srcPat (itemInner it) = false)
      ∧ (it.kind = false → existsPrefixCI hrefPat (itemInner it) = false)
      ∧ existsPrefixCI scriptOpen (itemInner it) = false
      ∧ existsPrefixCI styleOpen (itemInner it) = false := by
  unfold validItem at h
  rw [Bool.and_eq_true, Bool.and_eq_true, Bool.and_eq_true, Bool.and_eq_true] at h
  obtain ⟨⟨⟨⟨h1, h2⟩, h3⟩, h4⟩, h5⟩ := h
  refine ⟨by simpa using h1, h2, ?_, ?_, by simpa using h4, by simpa using h5⟩
  · intro hk
    rw [hk] at h3
    simpa using h3
  · intro hk
    rw [hk] at h3
    simpa using h3

/-- An anchor tag with a plain URL contributes exactly that URL to the `href=`
harvest. -/
theorem findAll_anchor (u : String) (q : Bool) (rest : List Char)
    (hne : u.data.isEmpty = false) (hchars : u.data.all isUrlChar = true) :
    findAll hrefPat (renderItem ⟨true, u, q⟩ ++ rest)
      = u.data :: findAll hrefPat rest := by
  have hform : renderItem ⟨true, u, q⟩ ++ rest
      = '<' :: 'a' :: ' ' :: (hrefPat ++ (if q then '"' :: u.data ++ '"' :: '>' :: rest
                                          else u.data ++ '>' :: rest)) := by
    cases q <;> simp [renderItem, itemInner, hrefPat]
  rw [hform,
    findAll_step_no hrefPat '<'
      ('a' :: ' ' :: (hrefPat ++ (if q then '"' :: u.data ++ '"' :: '>' :: rest
                                  else u.data ++ '>' :: rest))) rfl,
    findAll_step_no hrefPat 'a'
      (' ' :: (hrefPat ++ (if q then '"' :: u.data ++ '"' :: '>' :: rest
                           else u.data ++ '>' :: rest))) rfl,
    findAll_step_no hrefPat ' '
      (hrefPat ++ (if q then '"' :: u.data ++ '"' :: '>' :: rest
                   else u.data ++ '>' :: rest)) rfl,
    findAll_capture hrefPat 'h' ['r', 'e', 'f', '='] rfl (by decide) (by decide)
      (by decide) u q rest hne hchars]

/-- An image tag with a plain URL contributes exactly that URL to the `src=`
harvest. -/
theorem findAll_img (u : String) (q : Bool) (rest : List Char)
    (hne : u.data.isEmpty = false) (hchars : u.data.all isUrlChar = true) :
    findAll srcPat (renderItem ⟨false, u, q⟩ ++ rest)
      = u.data :: findAll srcPat rest := by
  have hform : renderItem ⟨false, u, q⟩ ++ rest
      = '<' :: 'i' :: 'm' :: 'g' :: ' '
          :: (srcPat ++ (if q then '"' :: u.data ++ '"' :: '>' :: rest
                         else u.data ++ '>' :: rest)) := by
    cases q <;> simp [renderItem, itemInner, srcPat]
  rw [hform,
    findAll_step_no srcPat '<'
      ('i' :: 'm' :: 'g' :: ' ' :: (srcPat ++ (if q then '"' :: u.data ++ '"' :: '>' :: rest
                                               else u.data ++ '>' :: rest))) rfl,
    findAll_step_no srcPat 'i'
      ('m' :: 'g' :: ' ' :: (srcPat ++ (if q then '"' :: u.data ++ '"' :: '>' :: rest
                                        else u.data ++ '>' :: rest))) rfl,
    findAll_step_no srcPat 'm'
      ('g' :: ' ' :: (srcPat ++ (if q then '"' :: u.data ++ '"' :: '>' :: rest
                                 else u.data ++ '>' :: rest))) rfl,
    findAll_step_no srcPat 'g'
      (' ' :: (srcPat ++ (if q then '"' :: u.data ++ '"' :: '>' :: rest
                          else u.data ++ '>' :: rest))) rfl,
    findAll_step_no srcPat ' '
      (srcPat ++ (if q then '"' :: u.data ++ '"' :: '>' :: rest
                  else u.data ++ '>' :: rest)) rfl,
    findAll_capture srcPat 's' ['r', 'c', '='] rfl (by decide) (by decide)
      (by decide) u q rest hne hchars]

/-- A tag whose inner text is free of the pattern is skipped wholesale by the
scanner (its closing `>` blocks any boundary-crossing match). -/
theorem findAll_skip_item (pat : List Char) (p : Char) (ps : List Char)
    (hpat : pat = p :: ps)
    (hgall : ∀ r ∈ pat, (('>').toLower == r) = false)
    (it : TagItem) (rest : List Char)
    (hno : existsPrefixCI pat (itemInner it) = false) :
    findAll pat (renderItem it ++ rest) = findAll pat rest := by
  have hform : renderItem it ++ rest = itemInner it ++ '>' :: rest := by
    simp [renderItem]
  rw [hform, findAll_skip (itemInner it) pat '>' rest hno hgall]
  refine findAll_step_no pat '>' rest ?_
  rw [hpat]
  show ((('>').toLower == p) && isPrefixCI ps rest) = false
  rw [hgall p (by rw [hpat]; exact List.mem_cons_self _ _)]
  rfl

theorem renderDoc_cons (it : TagItem) (items : List TagItem) :
    renderDoc (it :: items) = renderItem it ++ renderDoc items := by
  simp [renderDoc]

/-- If no tag's inner text contains the pattern and `>` cannot start it, the
rendered document is pattern-free. -/
theorem renderDoc_no_pat (pat : List Char) (p : Char) (ps : List Char)
    (hpat : pat = p :: ps)
    (hgall : ∀ r ∈ pat, (('>').toLower == r) = false) :
    ∀ items : List TagItem,
      (∀ it ∈ items, existsPrefixCI pat (itemInner it) = false) →
      existsPrefixCI pat (renderDoc items) = false := by
  intro items
  induction items with
  | nil => intro _; rfl
  | cons it items' ih =>
    intro h
    rw [renderDoc_cons,
      show renderItem it ++ renderDoc items' = itemInner it ++ '>' :: renderDoc items'
        from by simp [renderItem]]
    refine existsPrefixCI_append_false (itemInner it) pat '>' (renderDoc items')
      (h it (List.mem_cons_self _ _)) hgall ?_
    show (isPrefixCI pat ('>' :: renderDoc items')
        || existsPrefixCI pat (renderDoc items')) = false
    rw [ih (fun t ht => h t (List.mem_cons_of_mem it ht)), hpat]
    show ((('>').toLower == p) && isPrefixCI ps (renderDoc items') || false) = false
    rw [hgall p (by rw [hpat]; exact List.mem_cons_self _ _)]
    rfl

/-- The `href=` harvest of a rendered document is the anchor URLs in order. -/
theorem findAll_renderDoc_href : ∀ items : List TagItem,
    (∀ it ∈ items, validItem it = true) →
    findAll hrefPat (renderDoc items)
      = (items.filter (fun it => it.kind)).map (fun it => it.url.data) := by
  intro items
  induction items with
  | nil => intro _; rfl
  | cons it items' ih =>
    intro hv
    have ihv := ih (fun t ht => hv t (List.mem_cons_of_mem it ht))
    obtain ⟨h1, h2, h3, h4, h5, h6⟩ := validItem_spec (hv it (List.mem_cons_self _ _))
    rw [renderDoc_cons]
    rcases it with ⟨k, u, q⟩
    cases k
    · rw [findAll_skip_item hrefPat 'h' ['r', 'e', 'f', '='] rfl (by decide) _ _
        (h4 rfl), ihv]
      simp [List.filter_cons]
    · rw [findAll_anchor u q _ h1 h2, ihv]
      simp [List.filter_cons]

/-- The `src=` harvest of a rendered document is the image URLs in order. -/
theorem findAll_renderDoc_src : ∀ items : List TagItem,
    (∀ it ∈ items, validItem it = true) →
    findAll srcPat (renderDoc items)
      = (items.filter (fun it => !it.kind)).map (fun it => it.url.data) := by
  intro items
  induction items with
  | nil => intro _; rfl
  | cons it items' ih =>
    intro hv
    have ihv := ih (fun t ht => hv t (List.mem_cons_of_mem it ht))
    obtain ⟨h1, h2, h3, h4, h5, h6⟩ := validItem_spec (hv it (List.mem_cons_self _ _))
    rw [renderDoc_cons]
    rcases it with ⟨k, u, q⟩
    cases k
    · rw [findAll_img u q _ h1 h2, ihv]
      simp [List.filter_cons]
    · rw [findAll_skip_item srcPat 's' ['r', 'c', '='] rfl (by decide) _ _
        (h3 rfl), ihv]
      simp [List.filter_cons]

/-- C2 amended: on a document of well-formed anchor/image tags (non-empty
attribute-value URLs, no stray `href=`/`src=`/`<script`/`<style` spelled out
inside a tag), `strip_html` returns the anchors' `href=` values as `links` and
the images' `src=` values as `images`, in document order with duplicates kept.
In general the extraction is by regex scan of the markup after script/style
removal (before tag removal), not an HTML-parse of attributes: quotes are
optional and values end at `'`, `"`, space or `>`. -/
theorem c2_links_images (items : List TagItem)
    (hv : ∀ it ∈ items, validItem it = true) :
    (strip_html (renderDoc items)).2.1
      = (items.filter (fun it => it.kind)).map (fun it => it.url.data)
    ∧ (strip_html (renderDoc items)).2.2
      = (items.filter (fun it => !it.kind)).map (fun it => it.url.data) := by
  have hvs : ∀ it ∈ items, existsPrefixCI scriptOpen (itemInner it) = false :=
    fun it ht => (validItem_spec (hv it ht)).2.2.2.2.1
  have hvt : ∀ it ∈ items, existsPrefixCI styleOpen (itemInner it) = false :=
    fun it ht => (validItem_spec (hv it ht)).2.2.2.2.2
  have hscript : removeElems scriptOpen scriptClose (renderDoc items)
      = renderDoc items := by
    unfold removeElems
    exact removeElemsFuel_noop _ _ _ _
      (renderDoc_no_pat scriptOpen '<' ['s', 'c', 'r', 'i', 'p', 't'] rfl (by decide)
        items hvs)
  have hstyle : removeElems styleOpen styleClose (renderDoc items)
      = renderDoc items := by
    unfold removeElems
    exact removeElemsFuel_noop _ _ _ _
      (renderDoc_no_pat styleOpen '<' ['s', 't', 'y', 'l', 'e'] rfl (by decide)
        items hvt)
  constructor
  · show findAll hrefPat (removeElems styleOpen styleClose
        (removeElems scriptOpen scriptClose (renderDoc items))) = _
    rw [hscript, hstyle]
    exact findAll_renderDoc_href items hv
  · show findAll srcPat (removeElems styleOpen styleClose
        (removeElems scriptOpen scriptClose (renderDoc items))) = _
    rw [hscript, hstyle]
    exact findAll_renderDoc_src items hv

/-- C2 counterexample to the original wording: the links are harvested after
script removal, so an `href=` inside a script element is dropped, while a raw
scan of the whole markup would keep it. -/
theorem c2_counterexample :
    (strip_html ("<script>href=x </script><a href=\"y\">").data).2.1 = ["y".data]
    ∧ findAll hrefPat ("<script>href=x </script><a href=\"y\">").data
        = ["x".data, "y".data]
    ∧ (strip_html ("<script>href=x </script><a href=\"y\">").data).2.1
        ≠ findAll hrefPat ("<script>href=x </script><a href=\"y\">").data :=
  ⟨by decide, by decide, by decide⟩

/-- C2 witness: a mixed document with quoted and unquoted URLs, both tag
kinds, and a duplicated link. -/
theorem c2_links_images_witness :
    (strip_html (renderDoc [⟨true, "a.com", true⟩, ⟨false, "img1.png", true⟩,
        ⟨true, "b-com", false⟩, ⟨true, "a.com", true⟩])).2.1
      = (([⟨true, "a.com", true⟩, ⟨false, "img1.png", true⟩, ⟨true, "b-com", false⟩,
          ⟨true, "a.com", true⟩] : List TagItem).filter
            (fun it => it.kind)).map (fun it => it.url.data)
    ∧ (strip_html (renderDoc [⟨true, "a.com", true⟩, ⟨false, "img1.png", true⟩,
        ⟨true, "b-com", false⟩, ⟨true, "a.com", true⟩])).2.2
      = (([⟨true, "a.com", true⟩, ⟨false, "img1.png", true⟩, ⟨true, "b-com", false⟩,
          ⟨true, "a.com", true⟩] : List TagItem).filter
            (fun it => !it.kind)).map (fun it => it.url.data) :=
  c2_links_images _ (by decide)

end Pipeline
